import Mathlib

/-!
Verification of the discord news bot core (newsBot.py, discordClient.py).

The Python source is shallowly embedded: every function below mirrors a
function of the source, with the external collaborators (the Discord HTTP
gateway and the Twitter client) modelled as explicit state that the
embedded functions thread through.  Machine-level details that the claims
do not touch (websocket identify flow, HTTP transport, logging, JSON
credential loading) are omitted.
-/

/-! ## Rate-limit records (discordClient.py, DiscordClient.rateLimits) -/

/-- One entry of `DiscordClient.rateLimits`: the parsed
`X-RateLimit-Remaining` / `X-RateLimit-Reset` headers of the most recent
response for one endpoint URL. -/
structure RateLimitRecord where
  remaining : Int
  reset : Int
deriving DecidableEq, Repr, Inhabited

/-- Python dict assignment `d[k] = v`: replace the binding if the key is
present, otherwise append it (insertion order is preserved). -/
def dictSet {α β : Type} [DecidableEq α] : List (α × β) → α → β → List (α × β)
  | [], k, v => [(k, v)]
  | (k1, v1) :: rest, k, v =>
    if k1 = k then (k, v) :: rest else (k1, v1) :: dictSet rest k v

/-- `DiscordClient.checkResponse`, restricted to its rate-limit bookkeeping:
if the response for `url` carried rate-limit headers (`headers = some rec`)
the record for `url` is stored, otherwise the table is left alone.  The
`raise_for_status` / JSON-body part of the source function is not modelled
here because no claim depends on it. -/
def checkResponse (rateLimits : List (String × RateLimitRecord)) (url : String)
    (headers : Option RateLimitRecord) : List (String × RateLimitRecord) :=
  match headers with
  | some r => dictSet rateLimits url r
  | none => rateLimits

/-- `DiscordClient.atRateLimit`.  `now` is the value of `time.time()`;
it is rational because the Python clock is sub-second.  The source reads:
an URL with no record is not limited; a recorded URL is limited exactly
when `remaining == 0` and the reset time has not strictly passed. -/
def atRateLimit (rateLimits : List (String × RateLimitRecord)) (url : String)
    (now : ℚ) : Bool :=
  match rateLimits.lookup url with
  | none => false
  | some r =>
    if r.remaining = 0 then
      if (r.reset : ℚ) < now then false else true
    else false

/-! ## Message format and the message-ID parser (newsBot.py) -/

/-- ASCII decimal digit, the `\d` of `DISCORD_MESSAGE_RE`. -/
def isDigit (c : Char) : Bool :=
  decide ('0' ≤ c) && decide (c ≤ '9')

/-- Greedy digit run anchored at the current position: `some ds` when the
characters from here up to the next end of line (a `\n`, or the end of the
string — the `$` anchor under `re.M`) are all digits, and `ds` is that run
(possibly empty).  `none` when a non-digit, non-newline character is hit
first. -/
def runEOL : List Char → Option (List Char)
  | [] => some []
  | c :: cs =>
    if c = '\n' then some []
    else if isDigit c then (runEOL cs).map (fun ds => c :: ds)
    else none

/-- Does `(\d+)$` match starting exactly at the head of `cs`?  The captured
group is the (necessarily maximal) digit run; at least one digit is
required. -/
def headMatch (cs : List Char) : Option (List Char) :=
  match runEOL cs with
  | some (c :: ds) => some (c :: ds)
  | _ => none

/-- `re.search` with pattern `(\d+)$` and flag `re.M`: try every start
position left to right and return the first (leftmost) match. -/
def searchID : List Char → Option (List Char)
  | [] => none
  | c :: cs =>
    match headMatch (c :: cs) with
    | some ds => some ds
    | none => searchID cs

/-- Numeric value of a decimal digit character. -/
def digitVal (c : Char) : Nat := c.toNat - 48

/-- `int(...)` on a string of decimal digits. -/
def digitsToNat (ds : List Char) : Nat :=
  ds.foldl (fun a c => 10 * a + digitVal c) 0

/-- `getIDFromMessage`: search the message with `DISCORD_MESSAGE_RE`
(`(\d+)$`, multiline) and convert the captured group with `int`. -/
def getIDFromMessage (message : String) : Option Nat :=
  (searchID message.data).map digitsToNat

/-- The decimal digit character for `d % 10`-style values. -/
def digitChar (d : Nat) : Char :=
  if d = 0 then '0' else if d = 1 then '1' else if d = 2 then '2'
  else if d = 3 then '3' else if d = 4 then '4' else if d = 5 then '5'
  else if d = 6 then '6' else if d = 7 then '7' else if d = 8 then '8'
  else '9'

/-- Decimal digits of `n`, most significant first, with explicit fuel so
that the definition is structural (the fuel `n + 1` always suffices). -/
def natToDecimalAux : Nat → Nat → List Char
  | 0, _ => []
  | fuel + 1, n =>
    if n < 10 then [digitChar n]
    else natToDecimalAux fuel (n / 10) ++ [digitChar (n % 10)]

/-- Python string formatting of a non-negative integer (`"{id}"`). -/
def natToDecimal (n : Nat) : List Char :=
  natToDecimalAux (n + 1) n

/-- `MESSAGE_FORMAT.format(...)`: the template from newsBot.py with its four
interpolations `screenName`, `id`, `date`, `retweetStatus`. -/
def MESSAGE_FORMAT (screenName : String) (id : Nat) (date : String)
    (retweetStatus : String) : String :=
  "URL: https://twitter.com/" ++ screenName ++ "/status/" ++
    String.mk (natToDecimal id) ++ "\nDate: " ++ date ++ retweetStatus

/-- The canonical outbound message of `doUpdate`: `retweetStatus` is
`"\n<Retweet>"` for a repost and `""` otherwise. -/
def formatMessage (screenName : String) (id : Nat) (date : String)
    (isRepost : Bool) : String :=
  MESSAGE_FORMAT screenName id date (if isRepost then "\n<Retweet>" else "")

/-- The final line of a message (the characters after the last `\n`). -/
def lastLine (s : String) : List Char :=
  ((s.data.reverse.takeWhile (fun c => c != '\n')).reverse)

/-- The first line of a message (the characters before the first `\n`). -/
def firstLine (s : String) : List Char :=
  s.data.takeWhile (fun c => c != '\n')

/-! ## Channels and the guild (discordClient.py) -/

/-- A Discord channel record as consumed by newsBot.py:
`{id, name, type, parent_id}`. -/
structure Channel where
  id : Nat
  name : String
  type : Nat
  parent : Option Nat
deriving DecidableEq, Repr, Inhabited

/-- `ChannelTypes.GUILD_TEXT`. -/
def GUILD_TEXT : Nat := 0

/-- `ChannelTypes.GUILD_CATEGORY`. -/
def GUILD_CATEGORY : Nat := 4

/-- The remote guild as the bot observes it: the channel list in position
order, plus a supply of fresh ids for newly created channels. -/
structure Guild where
  channels : List Channel
  nextID : Nat
deriving DecidableEq, Repr

/-- `DiscordClient.createGuildChannel`: the gateway stores the new channel
(appended, i.e. at the end of its ordering) and returns its record. -/
def createGuildChannel (g : Guild) (name : String) (ty : Nat)
    (parent : Option Nat) : Channel × Guild :=
  let c : Channel := ⟨g.nextID, name, ty, parent⟩
  (c, ⟨g.channels ++ [c], g.nextID + 1⟩)

/-- The category-search loop of `channelMaintenance` (lines 90–93): every
match overwrites `channelCategory`, so the last matching channel wins. -/
def findCategoryLoop (chans : List Channel) (catName : String) : Option Channel :=
  chans.foldl
    (fun acc ch =>
      if ch.type == GUILD_CATEGORY && ch.name == catName then some ch else acc)
    none

/-- Python string comparison: lexicographic on code points. -/
def charListLe : List Char → List Char → Bool
  | [], _ => true
  | _ :: _, [] => false
  | c :: cs, d :: ds => if c = d then charListLe cs ds else decide (c < d)

/-- `a <= b` on Python strings. -/
def strLe (a b : String) : Bool := charListLe a.data b.data

/-- The sort key of `channelMaintenance` (`nameSort`): order channels by
name. -/
def nameLe (a b : Channel) : Prop := strLe a.name b.name = true

instance nameLeDecidable : DecidableRel nameLe := fun a b =>
  instDecidableEqBool (strLe a.name b.name) true

instance nameLeTotal : IsTotal Channel nameLe := by
  constructor
  intro a b
  unfold nameLe strLe
  generalize a.name.data = x
  generalize b.name.data = y
  induction x generalizing y with
  | nil => left; rfl
  | cons c cs ih =>
    cases y with
    | nil => right; rfl
    | cons d ds =>
      by_cases hcd : c = d
      · subst hcd
        rcases ih ds with h | h
        · left; simp [charListLe, h]
        · right; simp [charListLe, h]
      · rcases lt_trichotomy c d with h | h | h
        · left; simp [charListLe, hcd, h]
        · exact absurd h hcd
        · right; simp [charListLe, Ne.symm hcd, h]

instance nameLeTrans : IsTrans Channel nameLe := by
  constructor
  intro a b c
  unfold nameLe strLe
  generalize a.name.data = x
  generalize b.name.data = y
  generalize c.name.data = z
  induction x generalizing y z with
  | nil => intro _ _; rfl
  | cons cx cs ih =>
    cases y with
    | nil => intro h1; simp [charListLe] at h1
    | cons cy ys =>
      cases z with
      | nil => intro _ h2; simp [charListLe] at h2
      | cons cz zs =>
        intro h1 h2
        by_cases hxy : cx = cy
        · subst hxy
          simp only [charListLe, if_pos rfl] at h1
          by_cases hyz : cx = cz
          · subst hyz
            simp only [charListLe, if_pos rfl] at h2 ⊢
            exact ih ys zs h1 h2
          · simp only [charListLe, if_neg hyz] at h2 ⊢
            exact h2
        · simp only [charListLe, if_neg hxy] at h1
          have hlt1 : cx < cy := of_decide_eq_true h1
          by_cases hyz : cy = cz
          · subst hyz
            simp [charListLe, hxy, hlt1]
          · simp only [charListLe, if_neg hyz] at h2
            have hlt2 : cy < cz := of_decide_eq_true h2
            have hlt : cx < cz := lt_trans hlt1 hlt2
            simp [charListLe, ne_of_lt hlt, hlt]

/-- Key order used to model position assignment. -/
def keyLe (a b : Nat × Channel) : Prop := a.1 ≤ b.1

instance keyLeDecidable : DecidableRel keyLe := fun a b => Nat.decLe a.1 b.1

instance keyLeTotal : IsTotal (Nat × Channel) keyLe :=
  ⟨fun a b => Nat.le_total a.1 b.1⟩

instance keyLeTrans : IsTrans (Nat × Channel) keyLe :=
  ⟨fun _ _ _ => Nat.le_trans⟩

/-- The position assigned to a channel by a reposition batch: its entry in
the batch if it has one, otherwise its current index (it keeps its
place). -/
def keyOf (pairs : List (Nat × Nat)) (i : Nat) (c : Channel) : Nat :=
  (List.lookup c.id pairs).getD i

/-- Effect of a reposition batch on one parent bucket: each channel moves
to its assigned position; unmentioned channels keep their index.  The
reorder is stable. -/
def sortByKey (pairs : List (Nat × Nat)) (bucket : List Channel) : List Channel :=
  ((bucket.enum.map (fun ic => (keyOf pairs ic.1 ic.2, ic.2))).insertionSort
    keyLe).map (fun kc => kc.2)

/-- Replace, in place, the occupants of the slots whose current occupant
has parent `p` by the given bucket contents; all other slots are
untouched. -/
def replaceBucket (p : Option Nat) : List Channel → List Channel → List Channel
  | _, [] => []
  | nb, c :: cs =>
    if c.parent == p then nb.headD c :: replaceBucket p nb.tail cs
    else c :: replaceBucket p nb cs

/-- `DiscordClient.modifyGuildChannelPositions` together with its remote
effect: an empty batch issues no call (the source returns early); a
non-empty batch issues one PATCH that repositions the channels inside
their parent bucket (positions are per-bucket on the platform; all of the
batch's channels share one parent).  Returns the new guild and the number
of HTTP calls issued. -/
def modifyGuildChannelPositions (g : Guild) (pairs : List (Nat × Nat)) :
    Guild × Nat :=
  if pairs.isEmpty then (g, 0)
  else
    let parentBucket : Option Nat :=
      match pairs.head? with
      | some pr =>
        match g.channels.find? (fun c => c.id == pr.1) with
        | some c => c.parent
        | none => none
      | none => none
    let bucket := g.channels.filter (fun c => c.parent == parentBucket)
    let chans := replaceBucket parentBucket (sortByKey pairs bucket) g.channels
    ({ g with channels := chans }, 1)

/-! ## The twitterLists map (newsBot.py, TwitterUpdater) -/

/-- One value of the `twitterLists` dict:
`{"id": ..., "channelID": ..., "messages": [...]}`. -/
structure ListState where
  listID : Nat
  channelID : Option Nat
  messages : List String
deriving DecidableEq, Repr, Inhabited

/-- `TwitterUpdater.updateTwitterLists`: add an entry for every fetched
list name not already present (Twitter list id, no channel yet, empty
message queue); existing entries are never touched or removed. -/
def updateTwitterLists (fetched : List (String × Nat))
    (lists : List (String × ListState)) : List (String × ListState) :=
  fetched.foldl
    (fun acc p =>
      if (List.lookup p.1 acc).isSome then acc
      else acc ++ [(p.1, ⟨p.2, none, []⟩)])
    lists

/-- The per-list binding loop of `channelMaintenance` (lines 105–132): a
list that already has a channel id is left alone; otherwise the managed
set is searched for a channel named like the list (Discord lower-cases
text-channel names); if none is found a text channel is created under the
category (the source first waits out the channel-create rate limit in a
sleep loop, which changes none of the state modelled here) and the list is
bound to its id.  Returns the updated lists, the managed set including
any created channels, the guild, and the number of create calls. -/
structure BindResult where
  lists : List (String × ListState)
  current : List Channel
  guild : Guild
  creations : Nat
deriving DecidableEq, Repr

def bindLists (catID : Nat) : List (String × ListState) → List Channel →
    Guild → BindResult
  | [], current, g => ⟨[], current, g, 0⟩
  | (name, st) :: rest, current, g =>
    match st.channelID with
    | some _ =>
      let r := bindLists catID rest current g
      ⟨(name, st) :: r.lists, r.current, r.guild, r.creations⟩
    | none =>
      match current.find?
          (fun ch => ch.parent == some catID && ch.name == name.toLower) with
      | some ch =>
        let r := bindLists catID rest current g
        ⟨(name, { st with channelID := some ch.id }) :: r.lists, r.current,
          r.guild, r.creations⟩
      | none =>
        let p := createGuildChannel g name GUILD_TEXT (some catID)
        let r := bindLists catID rest (current ++ [p.1]) p.2
        ⟨(name, { st with channelID := some p.1.id }) :: r.lists, r.current,
          r.guild, r.creations + 1⟩

/-- Result of one `channelMaintenance` call: the updated lists and guild,
the number of channel-create calls, the number of reposition calls, and
the emitted reposition batch. -/
structure MaintResult where
  lists : List (String × ListState)
  guild : Guild
  creations : Nat
  repositionCalls : Nat
  pairs : List (Nat × Nat)
deriving DecidableEq, Repr

/-- `[(channel["id"], i) for (i, channel) in enumerate(currentChannels)
if channel != oldChannels[i]]`: one `(id, position)` pair for every index
of the sorted list whose occupant differs from the pre-sort occupant. -/
def diffPairs : Nat → List Channel → List Channel → List (Nat × Nat)
  | _, [], _ => []
  | _, _ :: _, [] => []
  | i, c :: cs, o :: os =>
    (if c = o then [] else [(c.id, i)]) ++ diffPairs (i + 1) cs os

/-- The body of `channelMaintenance` once the category is known (either
found or just created): filter the managed set, bind/create per-list
channels, sort the managed set by name, emit a `(channelID, position)`
pair for every index whose occupant changed, and issue the batched
reposition call. -/
def maintainWithCategory (cat : Channel) (lists : List (String × ListState))
    (g : Guild) (catCreations : Nat) : MaintResult :=
  let current0 := g.channels.filter (fun ch => ch.parent == some cat.id)
  let b := bindLists cat.id lists current0 g
  let sortedC := List.insertionSort nameLe b.current
  let pairs := diffPairs 0 sortedC b.current
  let m := modifyGuildChannelPositions b.guild pairs
  ⟨b.lists, m.1, catCreations + b.creations, m.2, pairs⟩

/-- `TwitterUpdater.channelMaintenance`: find (last match wins) or create
the category, then reconcile the per-list channels and their order. -/
def channelMaintenance (catName : String) (lists : List (String × ListState))
    (g : Guild) : MaintResult :=
  match findCategoryLoop g.channels catName with
  | some cat => maintainWithCategory cat lists g 0
  | none =>
    let p := createGuildChannel g catName GUILD_CATEGORY none
    maintainWithCategory p.1 lists p.2 1

/-! ## The dispatch queue (newsBot.py, sendMessages) -/

/-- The environment a drain pass runs against: `atLimit s c` is the
verdict of `checkMessageRateLimit` for channel `c` in gateway state `s`
(the state stands for `DiscordClient.rateLimits` plus the channel
contents), and `send s c m` is the state after
`createChannelMessage(c, m)` (whose response also refreshes the
rate-limit record). -/
structure SendEnv (σ : Type) where
  atLimit : σ → Option Nat → Bool
  send : σ → Option Nat → String → σ

/-- The inner loop of `sendMessages` for one list: iterate over the
snapshot `copiedMessages`; before each message consult the rate limit —
if exhausted stop (`checkMessageRateLimit` has then scheduled a retry and
the source returns), else send the message and pop the front of the real
queue.  Returns (messages sent, real queue left, state, hit-limit flag). -/
def drainLoop {σ : Type} (env : SendEnv σ) (chan : Option Nat) :
    List String → List String → σ → List String × List String × σ × Bool
  | [], real, s => ([], real, s, false)
  | m :: rest, real, s =>
    if env.atLimit s chan then ([], real, s, true)
    else
      let r := drainLoop env chan rest (real.drop 1) (env.send s chan m)
      (m :: r.1, r.2.1, r.2.2.1, r.2.2.2)

/-- One list's drain: the snapshot (`twitterList["messages"].copy()`) and
the real queue start out identical. -/
def drainList {σ : Type} (env : SendEnv σ) (chan : Option Nat)
    (msgs : List String) (s : σ) : List String × List String × σ × Bool :=
  drainLoop env chan msgs msgs s

/-- The state after sending each of `msgs` in order to `chan`. -/
def foldSends {σ : Type} (env : SendEnv σ) (chan : Option Nat) (s : σ)
    (msgs : List String) : σ :=
  msgs.foldl (fun t m => env.send t chan m) s

/-- `TwitterUpdater.sendMessages`: drain each list in dict order; on a
rate-limit hit the source has scheduled one retry task with a fixed
10-second delay (`scheduler.enter(10, 0, self.sendMessages)`) and
*returns*, leaving `sendingMessages = True`; if every list drains the
flag is cleared.  Returns (lists, scheduled retry delays, state, final
value of `sendingMessages`). -/
def sendMessagesLoop {σ : Type} (env : SendEnv σ) :
    List (String × ListState) → σ →
      List (String × ListState) × List Nat × σ × Bool
  | [], s => ([], [], s, false)
  | (name, st) :: rest, s =>
    let d := drainList env st.channelID st.messages s
    if d.2.2.2 then
      ((name, { st with messages := d.2.1 }) :: rest, [10], d.2.2.1, true)
    else
      let r := sendMessagesLoop env rest d.2.2.1
      ((name, { st with messages := d.2.1 }) :: r.1, r.2.1, r.2.2.1, r.2.2.2)

/-- The guarded drain call of `doUpdate`
(`if not self.sendingMessages: self.sendMessages()`): while the flag is
set the invocation is skipped entirely. -/
def guardedSendMessages {σ : Type} (env : SendEnv σ)
    (lists : List (String × ListState)) (s : σ) (sendingMessages : Bool) :
    List (String × ListState) × List Nat × σ × Bool :=
  if sendingMessages then (lists, [], s, true)
  else sendMessagesLoop env lists s

/-- The per-list fetch-and-enqueue phase of `doUpdate`: the cursor is
resolved and the new timeline items are formatted and appended to the
list's queue.  The fetched-and-formatted messages are abstracted into the
oracle `newMsgs` (they depend only on remote state, which no claim about
this phase constrains); the phase only ever appends to `messages` and
touches no other field. -/
def enqueuePhase (newMsgs : String → List String)
    (lists : List (String × ListState)) : List (String × ListState) :=
  lists.map (fun p => (p.1, { p.2 with messages := p.2.messages ++ newMsgs p.1 }))

/-- Result of one `doUpdate` cycle. -/
structure UpdateResult (σ : Type) where
  lists : List (String × ListState)
  guild : Guild
  retries : List Nat
  state : σ
  sendingMessages : Bool

/-- `TwitterUpdater.doUpdate`: refresh the list map, reconcile channels,
enqueue new items, and drain unless a drain pass is already outstanding.
Scheduling of the next cycle and the cursor-path rate-limit check (which
only selects which fetch happens) are not modelled. -/
def doUpdate {σ : Type} (catName : String) (fetched : List (String × Nat))
    (newMsgs : String → List String) (env : SendEnv σ) (g : Guild)
    (lists : List (String × ListState)) (s : σ) (sendingMessages : Bool) :
    UpdateResult σ :=
  let l1 := updateTwitterLists fetched lists
  let m := channelMaintenance catName l1 g
  let l2 := enqueuePhase newMsgs m.lists
  let r := guardedSendMessages env l2 s sendingMessages
  ⟨r.1, m.guild, r.2.1, r.2.2.1, r.2.2.2⟩

/-! ## Lemmas about the `(\d+)$` search -/

theorem isDigit_ne_newline {c : Char} (h : isDigit c = true) : c ≠ '\n' := by
  intro hc; subst hc; simp [isDigit] at h

theorem runEOL_append_none (a : List Char) (d : Char) (b : List Char)
    (ha : ∀ c ∈ a, c ≠ '\n') (hd1 : isDigit d = false) (hd2 : d ≠ '\n') :
    runEOL (a ++ d :: b) = none := by
  induction a with
  | nil => simp [runEOL, hd1, hd2]
  | cons c a ih =>
    have hc : c ≠ '\n' := ha c (by simp)
    have ih2 := ih (fun x hx => ha x (by simp [hx]))
    by_cases hdig : isDigit c = true
    · simp [runEOL, hc, hdig, ih2]
    · simp [runEOL, hc, hdig]

theorem searchID_append (a : List Char) (d : Char) (b : List Char)
    (ha : ∀ c ∈ a, c ≠ '\n') (hd1 : isDigit d = false) (hd2 : d ≠ '\n') :
    searchID (a ++ d :: b) = searchID b := by
  induction a with
  | nil =>
    have h0 : runEOL (d :: b) = none := runEOL_append_none [] d b (by simp) hd1 hd2
    simp [searchID, headMatch, h0]
  | cons c a ih =>
    have h0 : runEOL ((c :: a) ++ d :: b) = none :=
      runEOL_append_none (c :: a) d b ha hd1 hd2
    simp only [List.cons_append] at h0 ⊢
    simp only [searchID, headMatch, h0]
    exact ih (fun x hx => ha x (by simp [hx]))

theorem runEOL_digits (ds rest : List Char) (h : ∀ c ∈ ds, isDigit c = true) :
    runEOL (ds ++ '\n' :: rest) = some ds := by
  induction ds with
  | nil => simp [runEOL]
  | cons c ds ih =>
    have hdig : isDigit c = true := h c (by simp)
    have hc : c ≠ '\n' := isDigit_ne_newline hdig
    have ih2 := ih (fun x hx => h x (by simp [hx]))
    simp [runEOL, hc, hdig, ih2]

theorem searchID_digits (c : Char) (tl rest : List Char)
    (h : ∀ x ∈ c :: tl, isDigit x = true) :
    searchID ((c :: tl) ++ '\n' :: rest) = some (c :: tl) := by
  have h0 : runEOL ((c :: tl) ++ '\n' :: rest) = some (c :: tl) :=
    runEOL_digits (c :: tl) rest h
  simp only [List.cons_append] at h0 ⊢
  simp [searchID, headMatch, h0]

/-! ## Lemmas about decimal rendering -/

theorem isDigit_digitChar (d : Nat) : isDigit (digitChar d) = true := by
  unfold digitChar
  repeat' split
  all_goals decide

theorem digitVal_digitChar (d : Nat) (h : d < 10) : digitVal (digitChar d) = d := by
  interval_cases d <;> decide

theorem digitsToNat_append_single (a : List Char) (c : Char) :
    digitsToNat (a ++ [c]) = 10 * digitsToNat a + digitVal c := by
  simp [digitsToNat, List.foldl_append]

theorem natToDecimalAux_all_digits (fuel n : Nat) :
    ∀ c ∈ natToDecimalAux fuel n, isDigit c = true := by
  induction fuel generalizing n with
  | zero => simp [natToDecimalAux]
  | succ fuel ih =>
    intro c hc
    simp only [natToDecimalAux] at hc
    split at hc
    · simp at hc; subst hc; exact isDigit_digitChar n
    · rcases List.mem_append.1 hc with h | h
      · exact ih (n / 10) c h
      · simp at h; subst h; exact isDigit_digitChar (n % 10)

theorem natToDecimalAux_ne_nil (fuel n : Nat) (h : n < fuel) :
    natToDecimalAux fuel n ≠ [] := by
  cases fuel with
  | zero => omega
  | succ fuel =>
    simp only [natToDecimalAux]
    split
    · simp
    · simp

theorem natToDecimalAux_val (fuel n : Nat) (h : n < fuel) :
    digitsToNat (natToDecimalAux fuel n) = n := by
  induction fuel generalizing n with
  | zero => omega
  | succ fuel ih =>
    simp only [natToDecimalAux]
    split
    · rename_i h10
      simp [digitsToNat, digitVal_digitChar n h10]
    · rename_i h10
      push_neg at h10
      have hdiv : n / 10 < n := Nat.div_lt_self (by omega) (by omega)
      rw [digitsToNat_append_single, ih (n / 10) (by omega),
        digitVal_digitChar (n % 10) (Nat.mod_lt n (by omega))]
      exact Nat.div_add_mod n 10

theorem natToDecimal_all_digits (n : Nat) :
    ∀ c ∈ natToDecimal n, isDigit c = true :=
  natToDecimalAux_all_digits (n + 1) n

theorem natToDecimal_ne_nil (n : Nat) : natToDecimal n ≠ [] :=
  natToDecimalAux_ne_nil (n + 1) n (by omega)

theorem digitsToNat_natToDecimal (n : Nat) : digitsToNat (natToDecimal n) = n :=
  natToDecimalAux_val (n + 1) n (by omega)

/-! ## The format/parse round trip -/

theorem message_data_split (screenName : String) (id : Nat) (date rts : String) :
    (MESSAGE_FORMAT screenName id date rts).data
      = ("URL: https://twitter.com/".data ++ screenName.data ++ "/status".data)
        ++ '/' :: (natToDecimal id ++
          '\n' :: ("Date: ".data ++ date.data ++ rts.data)) := by
  have hsplit : ("/status/" : String).data = "/status".data ++ ['/'] := by decide
  have hdate : ("\nDate: " : String).data = '\n' :: "Date: ".data := by decide
  simp only [MESSAGE_FORMAT, String.data_append, hsplit, hdate]
  simp [String]

theorem getIDFromMessage_MESSAGE_FORMAT (screenName : String) (id : Nat)
    (date rts : String) (hsn : ∀ c ∈ screenName.data, c ≠ '\n') :
    getIDFromMessage (MESSAGE_FORMAT screenName id date rts) = some id := by
  have hlit1 : ∀ c ∈ ("URL: https://twitter.com/" : String).data, c ≠ '\n' := by
    decide
  have hlit2 : ∀ c ∈ ("/status" : String).data, c ≠ '\n' := by decide
  unfold getIDFromMessage
  rw [message_data_split]
  rw [searchID_append _ '/' _ ?hpre (by decide) (by decide)]
  case hpre =>
    intro c hc
    rcases List.mem_append.1 hc with hc | hc
    · rcases List.mem_append.1 hc with hc | hc
      · exact hlit1 c hc
      · exact hsn c hc
    · exact hlit2 c hc
  obtain ⟨c, tl, htl⟩ : ∃ c tl, natToDecimal id = c :: tl := by
    cases hnd : natToDecimal id with
    | nil => exact absurd hnd (natToDecimal_ne_nil id)
    | cons c tl => exact ⟨c, tl, rfl⟩
  rw [htl, searchID_digits c tl _ (by rw [← htl]; exact natToDecimal_all_digits id),
    ← htl, Option.map_some', digitsToNat_natToDecimal]

theorem takeWhile_append_stop (p : Char → Bool) (a : List Char) (x : Char)
    (r : List Char) (ha : ∀ c ∈ a, p c = true) (hx : p x = false) :
    (a ++ x :: r).takeWhile p = a := by
  induction a with
  | nil => simp [List.takeWhile_cons, hx]
  | cons c a ih =>
    have hc : p c = true := ha c (by simp)
    simp [List.takeWhile_cons, hc, ih (fun y hy => ha y (by simp [hy]))]

/-- C4 (counterexample): the round trip is not exact for *every* author
handle.  A handle containing a newline directly after a digit makes the
multiline `$` anchor match inside the URL prefix, so parsing returns `9`
instead of the formatted item identifier `123456789`. -/
theorem messageFormat_roundTrip_counterexample :
    getIDFromMessage (formatMessage "9\n" 123456789 "today" false) = some 9 ∧
      (9 : Nat) ≠ 123456789 := by
  constructor
  · decide
  · decide

/-- C4 (amended): for every item identifier, creation date and repost flag,
and every author handle that contains no newline character, formatting the
canonical outbound message with `MESSAGE_FORMAT` and parsing it back with
`getIDFromMessage` yields exactly the original identifier. -/
theorem messageFormat_roundTrip (screenName : String) (id : Nat)
    (date : String) (isRepost : Bool)
    (hsn : ∀ c ∈ screenName.data, c ≠ '\n') :
    getIDFromMessage (formatMessage screenName id date isRepost) = some id := by
  unfold formatMessage
  exact getIDFromMessage_MESSAGE_FORMAT screenName id date _ hsn

/-- Witness for the C4 theorem at a concrete input. -/
theorem messageFormat_roundTrip_witness :
    (∀ c ∈ ("NASA" : String).data, c ≠ '\n') ∧
      getIDFromMessage (formatMessage "NASA" 123456789 "Wed Oct 10" false)
        = some 123456789 :=
  ⟨by decide, messageFormat_roundTrip "NASA" 123456789 "Wed Oct 10" false (by decide)⟩

/-- C7 (counterexample): the canonical outbound message does *not* end with
the item identifier as its final line — the final line is the `Date:` line,
which is not a string of decimal digits and differs from the rendered
identifier. -/
theorem message_id_not_last_line_counterexample :
    lastLine (formatMessage "abc" 123456789 "Wed Oct 10 2018" false)
        ≠ natToDecimal 123456789 ∧
      ((lastLine (formatMessage "abc" 123456789 "Wed Oct 10 2018" false)).all
        isDigit) = false := by
  constructor
  · decide
  · decide

/-- C7 (amended): the canonical outbound message embeds the item identifier
as an unadorned decimal integer at the end of its *first* line (not its
final line), and the parser — a line-end-anchored (`re.M`) integer match
taking the leftmost occurrence — extracts exactly that identifier, for any
newline-free author handle. -/
theorem message_id_first_line (screenName : String) (id : Nat) (date : String)
    (isRepost : Bool) (hsn : ∀ c ∈ screenName.data, c ≠ '\n') :
    firstLine (formatMessage screenName id date isRepost)
        = ("URL: https://twitter.com/".data ++ screenName.data ++
            "/status/".data) ++ natToDecimal id ∧
      getIDFromMessage (formatMessage screenName id date isRepost) = some id := by
  refine ⟨?_, messageFormat_roundTrip screenName id date isRepost hsn⟩
  unfold firstLine formatMessage
  rw [message_data_split]
  have hsplit : ("/status/" : String).data = "/status".data ++ ['/'] := by decide
  have hshape :
      ("URL: https://twitter.com/".data ++ screenName.data ++ "/status".data)
          ++ '/' :: (natToDecimal id ++
            '\n' :: ("Date: ".data ++ date.data ++
              (if isRepost then ("\n<Retweet>" : String) else "").data))
        = (("URL: https://twitter.com/".data ++ screenName.data ++
            "/status".data ++ '/' :: natToDecimal id))
          ++ '\n' :: ("Date: ".data ++ date.data ++
            (if isRepost then ("\n<Retweet>" : String) else "").data) := by
    simp
  rw [hshape, takeWhile_append_stop]
  · rw [hsplit]; simp
  · intro c hc
    have hlit1 : ∀ c ∈ ("URL: https://twitter.com/" : String).data, c ≠ '\n' := by
      decide
    have hlit2 : ∀ c ∈ ("/status" : String).data, c ≠ '\n' := by decide
    have hne : c ≠ '\n' := by
      rcases List.mem_append.1 hc with hc | hc
      · rcases List.mem_append.1 hc with hc | hc
        · rcases List.mem_append.1 hc with hc | hc
          · exact hlit1 c hc
          · exact hsn c hc
        · exact hlit2 c hc
      · rcases List.mem_cons.1 hc with hc | hc
        · subst hc; decide
        · exact isDigit_ne_newline (natToDecimal_all_digits id c hc)
    simp [hne]
  · decide

/-- Witness for the C7 theorem at a concrete input. -/
theorem message_id_first_line_witness :
    (∀ c ∈ ("abc" : String).data, c ≠ '\n') ∧
      (firstLine (formatMessage "abc" 5 "d" true)
          = ("URL: https://twitter.com/".data ++ ("abc" : String).data ++
              "/status/".data) ++ natToDecimal 5 ∧
        getIDFromMessage (formatMessage "abc" 5 "d" true) = some 5) :=
  ⟨by decide, message_id_first_line "abc" 5 "d" true (by decide)⟩

/-! ## Rate-limit claim theorems -/

/-- C6 (counterexample): at `now = resetEpochSeconds` exactly, with
`remainingCalls = 0`, the source still reports the endpoint exhausted
(`reset < now` is false, so it returns `True`), contradicting the claim
that exhaustion requires `now < resetEpochSeconds` and that the endpoint
is available again as soon as `now >= resetEpochSeconds`. -/
theorem atRateLimit_boundary_counterexample :
    atRateLimit [("u", ⟨0, 100⟩)] "u" 100 = true ∧
      ¬ ((100 : ℚ) < ((100 : Int) : ℚ)) := by
  constructor
  · decide
  · norm_num

/-- C6 (amended): for every endpoint URL with a recorded
`RateLimitRecord` and every current time `now`, `atRateLimit` reports the
endpoint exhausted exactly when `remainingCalls = 0` and
`now ≤ resetEpochSeconds`, and reports it available again as soon as
`now > resetEpochSeconds`, with no explicit reset call needed. -/
theorem atRateLimit_exhausted_iff (rateLimits : List (String × RateLimitRecord))
    (url : String) (r : RateLimitRecord) (now : ℚ)
    (h : rateLimits.lookup url = some r) :
    atRateLimit rateLimits url now = true ↔
      (r.remaining = 0 ∧ now ≤ (r.reset : ℚ)) := by
  unfold atRateLimit
  rw [h]
  by_cases h0 : r.remaining = 0
  · by_cases hlt : (r.reset : ℚ) < now
    · simp [h0, hlt, not_le.2 hlt]
    · simp [h0, hlt, not_lt.1 hlt]
  · simp [h0]

/-- Witness for the C6 theorem at a concrete input. -/
theorem atRateLimit_exhausted_iff_witness :
    List.lookup "u" [("u", (⟨0, 100⟩ : RateLimitRecord))] = some ⟨0, 100⟩ ∧
      (atRateLimit [("u", ⟨0, 100⟩)] "u" 50 = true ↔
        ((⟨0, 100⟩ : RateLimitRecord).remaining = 0 ∧
          (50 : ℚ) ≤ (((⟨0, 100⟩ : RateLimitRecord).reset : Int) : ℚ))) :=
  ⟨by decide, atRateLimit_exhausted_iff [("u", ⟨0, 100⟩)] "u" ⟨0, 100⟩ 50 (by decide)⟩

theorem lookup_dictSet_ne {α β : Type} [DecidableEq α]
    (l : List (α × β)) (k k2 : α) (v : β) (h : k2 ≠ k) :
    List.lookup k2 (dictSet l k v) = List.lookup k2 l := by
  induction l with
  | nil =>
    simp [dictSet, List.lookup, beq_eq_false_iff_ne.2 h]
  | cons p rest ih =>
    obtain ⟨k1, v1⟩ := p
    by_cases hk : k1 = k
    · subst hk
      simp [dictSet, List.lookup, beq_eq_false_iff_ne.2 h]
    · by_cases hq : k2 = k1
      · simp [dictSet, hk, List.lookup, hq]
      · simp [dictSet, hk, List.lookup, beq_eq_false_iff_ne.2 hq, ih]

/-- C10: an endpoint URL with no recorded rate-limit entry is never
reported as rate limited — `atRateLimit` returns `false` — so the very
first call to any endpoint is never deferred by the rate-limit check;
moreover `checkResponse` records headers only under the URL of the
response that carried them, leaving every other URL unrecorded. -/
theorem atRateLimit_unrecorded_default_open :
    (∀ (rateLimits : List (String × RateLimitRecord)) (url : String) (now : ℚ),
      rateLimits.lookup url = none → atRateLimit rateLimits url now = false) ∧
    (∀ (rateLimits : List (String × RateLimitRecord)) (url : String)
      (headers : Option RateLimitRecord) (url2 : String), url2 ≠ url →
      List.lookup url2 (checkResponse rateLimits url headers)
        = List.lookup url2 rateLimits) := by
  constructor
  · intro rateLimits url now h
    unfold atRateLimit
    rw [h]
  · intro rateLimits url headers url2 h
    cases headers with
    | none => rfl
    | some r => exact lookup_dictSet_ne rateLimits url url2 r h

/-- Witness for the C10 theorem at a concrete input. -/
theorem atRateLimit_unrecorded_default_open_witness :
    List.lookup "first" ([] : List (String × RateLimitRecord)) = none ∧
      atRateLimit [] "first" 0 = false ∧
      ("other" : String) ≠ "first" ∧
      List.lookup "other" (checkResponse [] "first" (some ⟨3, 9⟩))
        = List.lookup "other" ([] : List (String × RateLimitRecord)) :=
  ⟨by decide,
   atRateLimit_unrecorded_default_open.1 [] "first" 0 (by decide),
   by decide,
   atRateLimit_unrecorded_default_open.2 [] "first" (some ⟨3, 9⟩) "other" (by decide)⟩

/-! ## Dispatch-queue lemmas -/

theorem drainLoop_spec {σ : Type} (env : SendEnv σ) (chan : Option Nat)
    (copied : List String) : ∀ (real : List String) (s : σ),
    ∃ k hit, k ≤ copied.length ∧
      drainLoop env chan copied real s
        = (copied.take k, real.drop k, foldSends env chan s (copied.take k), hit) ∧
      (hit = false → k = copied.length) ∧
      (hit = true → k < copied.length ∧
        env.atLimit (foldSends env chan s (copied.take k)) chan = true) := by
  induction copied with
  | nil =>
    intro real s
    exact ⟨0, false, Nat.le_refl 0, by simp [drainLoop, foldSends],
      fun _ => rfl, fun h => nomatch h⟩
  | cons m rest ih =>
    intro real s
    cases hl : env.atLimit s chan with
    | true =>
      refine ⟨0, true, Nat.zero_le _, ?_, ?_, ?_⟩
      · simp [drainLoop, hl, foldSends]
      · intro h
        exact nomatch h
      · intro _
        exact ⟨by simp, by simpa [foldSends] using hl⟩
    | false =>
      obtain ⟨k, hit, hk, hEq, hfalse, htrue⟩ :=
        ih (real.drop 1) (env.send s chan m)
      refine ⟨k + 1, hit, by simpa using hk, ?_, ?_, ?_⟩
      · simp only [drainLoop]
        rw [if_neg (by simp [hl])]
        simp only [hEq]
        simp [List.take_succ_cons, List.drop_drop, foldSends, Nat.add_comm]
      · intro h
        simp [hfalse h]
      · intro h
        obtain ⟨h1, h2⟩ := htrue h
        exact ⟨by simpa using h1, by simpa [foldSends, List.take_succ_cons] using h2⟩

/-- The drain of one list in `drainList` form: the snapshot and the real
queue coincide at the start, so the pass sends exactly a prefix and leaves
exactly the matching suffix. -/
theorem drainList_spec {σ : Type} (env : SendEnv σ) (chan : Option Nat)
    (msgs : List String) (s : σ) :
    ∃ k hit, k ≤ msgs.length ∧
      drainList env chan msgs s
        = (msgs.take k, msgs.drop k, foldSends env chan s (msgs.take k), hit) ∧
      (hit = false → k = msgs.length) ∧
      (hit = true → k < msgs.length ∧
        env.atLimit (foldSends env chan s (msgs.take k)) chan = true) :=
  drainLoop_spec env chan msgs msgs s

/-- C1: a drain pass over one list's queue delivers messages front-to-back
in enqueue order — the delivered messages are exactly the first `k`
enqueued ones, each sent once in order, and exactly `k` messages have been
popped from the front of the real queue, so the remainder is the untouched
suffix from position `k` on; if the pass stopped (`hit = true`) it was
because the rate limit was exhausted at position `k`, and a later drain
operates on exactly `msgs.drop k`; if it did not stop, the queue fully
drained. -/
theorem drainList_take_drop {σ : Type} (env : SendEnv σ) (chan : Option Nat)
    (msgs : List String) (s : σ) :
    ∃ k hit, k ≤ msgs.length ∧
      drainList env chan msgs s
        = (msgs.take k, msgs.drop k, foldSends env chan s (msgs.take k), hit) ∧
      msgs.take k ++ msgs.drop k = msgs ∧
      (hit = false → k = msgs.length ∧ msgs.drop k = []) ∧
      (hit = true → k < msgs.length ∧
        env.atLimit (foldSends env chan s (msgs.take k)) chan = true) := by
  obtain ⟨k, hit, hk, hEq, hfalse, htrue⟩ := drainList_spec env chan msgs s
  exact ⟨k, hit, hk, hEq, List.take_append_drop k msgs,
    fun h => ⟨hfalse h, by rw [hfalse h]; exact List.drop_length msgs⟩, htrue⟩

/-- Witness for the C1 theorem at a concrete input: an environment whose
rate limit trips after two sends. -/
theorem drainList_take_drop_witness :
    ∃ k hit, k ≤ (["a", "b", "c"] : List String).length ∧
      drainList (⟨fun s _ => decide (2 ≤ s), fun s _ _ => s + 1⟩ : SendEnv Nat)
          (some 1) ["a", "b", "c"] 0
        = ((["a", "b", "c"] : List String).take k,
           (["a", "b", "c"] : List String).drop k,
           foldSends (⟨fun s _ => decide (2 ≤ s), fun s _ _ => s + 1⟩ : SendEnv Nat)
             (some 1) 0 ((["a", "b", "c"] : List String).take k), hit) ∧
      (["a", "b", "c"] : List String).take k
          ++ (["a", "b", "c"] : List String).drop k = ["a", "b", "c"] ∧
      (hit = false → k = (["a", "b", "c"] : List String).length ∧
        (["a", "b", "c"] : List String).drop k = []) ∧
      (hit = true → k < (["a", "b", "c"] : List String).length ∧
        (⟨fun s _ => decide (2 ≤ s), fun s _ _ => s + 1⟩ : SendEnv Nat).atLimit
          (foldSends (⟨fun s _ => decide (2 ≤ s), fun s _ _ => s + 1⟩ : SendEnv Nat)
            (some 1) 0 ((["a", "b", "c"] : List String).take k)) (some 1) = true) :=
  drainList_take_drop (⟨fun s _ => decide (2 ≤ s), fun s _ _ => s + 1⟩ : SendEnv Nat)
    (some 1) ["a", "b", "c"] 0

/-- Structure of one full `sendMessages` pass: if no rate limit was hit,
every list was fully drained and no retry was scheduled; if one was hit,
the pass stopped at the first list whose drain hit the limit — every list
before it is fully drained, that list keeps its undelivered suffix, every
list after it is completely untouched, and exactly one 10-second retry
was scheduled. -/
theorem sendMessagesLoop_spec {σ : Type} (env : SendEnv σ) :
    ∀ (lists : List (String × ListState)) (s : σ),
    ((sendMessagesLoop env lists s).2.2.2 = false →
       (sendMessagesLoop env lists s).1
         = lists.map (fun p => (p.1, { p.2 with messages := [] })) ∧
       (sendMessagesLoop env lists s).2.1 = []) ∧
    ((sendMessagesLoop env lists s).2.2.2 = true →
       ∃ pre name st post k,
         lists = pre ++ (name, st) :: post ∧
         k < st.messages.length ∧
         (sendMessagesLoop env lists s).1
           = pre.map (fun p => (p.1, { p.2 with messages := [] }))
             ++ (name, { st with messages := st.messages.drop k }) :: post ∧
         (sendMessagesLoop env lists s).2.1 = [10]) := by
  intro lists
  induction lists with
  | nil =>
    intro s
    exact ⟨fun _ => ⟨rfl, rfl⟩, fun h => nomatch h⟩
  | cons p rest ih =>
    intro s
    obtain ⟨name, st⟩ := p
    obtain ⟨k, hit, hk, hEq, hfalse, htrue⟩ :=
      drainList_spec env st.channelID st.messages s
    cases hit with
    | true =>
      have hs : sendMessagesLoop env ((name, st) :: rest) s
          = ((name, { st with messages := st.messages.drop k }) :: rest, [10],
             foldSends env st.channelID s (st.messages.take k), true) := by
        simp only [sendMessagesLoop, hEq, if_true]
      constructor
      · intro h
        rw [hs] at h
        exact nomatch h
      · intro _
        exact ⟨[], name, st, rest, k, rfl, (htrue rfl).1, by rw [hs]; simp,
          by rw [hs]⟩
    | false =>
      have hlen : k = st.messages.length := hfalse rfl
      have hdrop : st.messages.drop k = [] := by
        rw [hlen]; exact List.drop_length st.messages
      have hs : sendMessagesLoop env ((name, st) :: rest) s
          = ((name, { st with messages := st.messages.drop k }) ::
              (sendMessagesLoop env rest
                (foldSends env st.channelID s (st.messages.take k))).1,
             (sendMessagesLoop env rest
               (foldSends env st.channelID s (st.messages.take k))).2.1,
             (sendMessagesLoop env rest
               (foldSends env st.channelID s (st.messages.take k))).2.2.1,
             (sendMessagesLoop env rest
               (foldSends env st.channelID s (st.messages.take k))).2.2.2) := by
        simp only [sendMessagesLoop, hEq, Bool.false_eq_true, if_false]
      constructor
      · intro h
        rw [hs] at h
        obtain ⟨ih1, ih2⟩ :=
          (ih (foldSends env st.channelID s (st.messages.take k))).1 h
        rw [hs]
        constructor
        · simp [ih1, hdrop]
        · exact ih2
      · intro h
        rw [hs] at h
        obtain ⟨pre, n2, st2, post, k2, hsplit, hk2, hR1, hRet⟩ :=
          (ih (foldSends env st.channelID s (st.messages.take k))).2 h
        refine ⟨(name, st) :: pre, n2, st2, post, k2, by simp [hsplit], hk2, ?_, ?_⟩
        · rw [hs]
          simp [hR1, hdrop]
        · rw [hs]
          exact hRet

/-- C2 (counterexample): in a single drain pass with two lists, the first
list's channel (id 1) rate-limit exhausted and the second list's channel
(id 2) open, the pass stops entirely: the second list's queue is left
untouched and nothing is sent at all (the send log stays empty), even
though channel 2 is not rate limited — so one rate-limited destination
does block delivery to the other destinations within the pass. -/
theorem sendMessages_blocks_other_lists_counterexample :
    sendMessagesLoop
        (⟨fun _ c => c == some 1, fun s c m => s ++ [(c, m)]⟩ :
          SendEnv (List (Option Nat × String)))
        [("A", ⟨7, some 1, ["a1"]⟩), ("B", ⟨8, some 2, ["b1"]⟩)] []
      = ([("A", ⟨7, some 1, ["a1"]⟩), ("B", ⟨8, some 2, ["b1"]⟩)], [10], [], true) ∧
    (⟨fun _ c => c == some 1, fun s c m => s ++ [(c, m)]⟩ :
        SendEnv (List (Option Nat × String))).atLimit [] (some 2) = false := by
  constructor
  · rfl
  · rfl

/-- C2 (amended): in a single drain pass over several lists, the first
list whose destination channel is rate-limit exhausted stops the *whole*
pass (the source returns from `sendMessages`): lists before it are fully
drained, it keeps exactly its undelivered suffix, and every later list is
left completely untouched for this pass; one deferred retry task with a
fixed 10-second delay is registered.  When no list hits the limit, no
retry is registered. -/
theorem sendMessages_rate_limit_stops_pass {σ : Type} (env : SendEnv σ)
    (lists : List (String × ListState)) (s : σ) :
    ((sendMessagesLoop env lists s).2.2.2 = true →
       ∃ pre name st post k,
         lists = pre ++ (name, st) :: post ∧
         k < st.messages.length ∧
         (sendMessagesLoop env lists s).1
           = pre.map (fun p => (p.1, { p.2 with messages := [] }))
             ++ (name, { st with messages := st.messages.drop k }) :: post ∧
         (sendMessagesLoop env lists s).2.1 = [10]) ∧
    ((sendMessagesLoop env lists s).2.2.2 = false →
       (sendMessagesLoop env lists s).2.1 = []) :=
  ⟨(sendMessagesLoop_spec env lists s).2,
   fun h => ((sendMessagesLoop_spec env lists s).1 h).2⟩

/-- Witness for the C2 theorem at a concrete input. -/
theorem sendMessages_rate_limit_stops_pass_witness :
    ((sendMessagesLoop
          (⟨fun _ c => c == some 3, fun s c m => s ++ [(c, m)]⟩ :
            SendEnv (List (Option Nat × String)))
          [("A", ⟨7, some 3, ["a1"]⟩)] []).2.2.2 = true →
       ∃ pre name st post k,
         [("A", (⟨7, some 3, ["a1"]⟩ : ListState))] = pre ++ (name, st) :: post ∧
         k < st.messages.length ∧
         (sendMessagesLoop
            (⟨fun _ c => c == some 3, fun s c m => s ++ [(c, m)]⟩ :
              SendEnv (List (Option Nat × String)))
            [("A", ⟨7, some 3, ["a1"]⟩)] []).1
           = pre.map (fun p => (p.1, { p.2 with messages := [] }))
             ++ (name, { st with messages := st.messages.drop k }) :: post ∧
         (sendMessagesLoop
            (⟨fun _ c => c == some 3, fun s c m => s ++ [(c, m)]⟩ :
              SendEnv (List (Option Nat × String)))
            [("A", ⟨7, some 3, ["a1"]⟩)] []).2.1 = [10]) ∧
    ((sendMessagesLoop
          (⟨fun _ c => c == some 3, fun s c m => s ++ [(c, m)]⟩ :
            SendEnv (List (Option Nat × String)))
          [("A", ⟨7, some 3, ["a1"]⟩)] []).2.2.2 = false →
       (sendMessagesLoop
          (⟨fun _ c => c == some 3, fun s c m => s ++ [(c, m)]⟩ :
            SendEnv (List (Option Nat × String)))
          [("A", ⟨7, some 3, ["a1"]⟩)] []).2.1 = []) :=
  sendMessages_rate_limit_stops_pass
    (⟨fun _ c => c == some 3, fun s c m => s ++ [(c, m)]⟩ :
      SendEnv (List (Option Nat × String)))
    [("A", ⟨7, some 3, ["a1"]⟩)] []

/-- C8: while the process-wide `sendingMessages` flag is set, the only
drain invocation outside the scheduled retry task — the guarded call in
`doUpdate` — is ignored (state, lists and flag unchanged, no drain, no
retries), so the retry task is the sole active drainer; and the flag ends
a pass cleared exactly when the pass ran with no rate-limit deferral, in
which case every list's queue has been fully drained and no retry was
scheduled; a deferred pass leaves the flag set and one 10-second retry
scheduled. -/
theorem sendingMessages_flag_semantics {σ : Type} (env : SendEnv σ)
    (lists : List (String × ListState)) (s : σ) :
    guardedSendMessages env lists s true = (lists, [], s, true) ∧
    ((sendMessagesLoop env lists s).2.2.2 = false →
      (∀ p ∈ (sendMessagesLoop env lists s).1,
        p.2.messages = ([] : List String)) ∧
      (sendMessagesLoop env lists s).2.1 = []) ∧
    ((sendMessagesLoop env lists s).2.2.2 = true →
      (sendMessagesLoop env lists s).2.1 = [10]) := by
  refine ⟨rfl, ?_, ?_⟩
  · intro h
    obtain ⟨h1, h2⟩ := (sendMessagesLoop_spec env lists s).1 h
    refine ⟨?_, h2⟩
    intro p hp
    rw [h1] at hp
    obtain ⟨q, _, rfl⟩ := List.mem_map.1 hp
    rfl
  · intro h
    obtain ⟨_, _, _, _, _, _, _, _, hRet⟩ := (sendMessagesLoop_spec env lists s).2 h
    exact hRet

/-- Witness for the C8 theorem at a concrete input. -/
theorem sendingMessages_flag_semantics_witness :
    guardedSendMessages (⟨fun _ _ => false, fun s _ _ => s⟩ : SendEnv Nat)
        [("A", ⟨1, some 5, ["m"]⟩)] 0 true
      = ([("A", ⟨1, some 5, ["m"]⟩)], [], 0, true) ∧
    ((sendMessagesLoop (⟨fun _ _ => false, fun s _ _ => s⟩ : SendEnv Nat)
        [("A", ⟨1, some 5, ["m"]⟩)] 0).2.2.2 = false →
      (∀ p ∈ (sendMessagesLoop (⟨fun _ _ => false, fun s _ _ => s⟩ : SendEnv Nat)
          [("A", ⟨1, some 5, ["m"]⟩)] 0).1,
        p.2.messages = ([] : List String)) ∧
      (sendMessagesLoop (⟨fun _ _ => false, fun s _ _ => s⟩ : SendEnv Nat)
        [("A", ⟨1, some 5, ["m"]⟩)] 0).2.1 = []) ∧
    ((sendMessagesLoop (⟨fun _ _ => false, fun s _ _ => s⟩ : SendEnv Nat)
        [("A", ⟨1, some 5, ["m"]⟩)] 0).2.2.2 = true →
      (sendMessagesLoop (⟨fun _ _ => false, fun s _ _ => s⟩ : SendEnv Nat)
        [("A", ⟨1, some 5, ["m"]⟩)] 0).2.1 = [10]) :=
  sendingMessages_flag_semantics (⟨fun _ _ => false, fun s _ _ => s⟩ : SendEnv Nat)
    [("A", ⟨1, some 5, ["m"]⟩)] 0

/-! ## Map-invariant lemmas (C9) -/

theorem lookup_append_some {α β : Type} [BEq α] (l l2 : List (α × β)) (k : α)
    (v : β) (h : List.lookup k l = some v) : List.lookup k (l ++ l2) = some v := by
  induction l with
  | nil => simp [List.lookup] at h
  | cons p rest ih =>
    obtain ⟨k1, v1⟩ := p
    cases hb : (k == k1) with
    | true =>
      have h2 : some v1 = some v := by simpa [List.lookup, hb] using h
      rw [List.cons_append]
      simpa [List.lookup, hb] using h2
    | false =>
      rw [List.cons_append]
      simp only [List.lookup, hb] at h ⊢
      exact ih h

theorem lookup_updateTwitterLists (fetched : List (String × Nat)) :
    ∀ (lists : List (String × ListState)) (name : String) (st : ListState),
    List.lookup name lists = some st →
    List.lookup name (updateTwitterLists fetched lists) = some st := by
  induction fetched with
  | nil => intro lists name st h; exact h
  | cons p rest ih =>
    intro lists name st h
    show List.lookup name (List.foldl _ lists (p :: rest)) = some st
    rw [List.foldl_cons]
    refine ih _ name st ?_
    by_cases hp : (List.lookup p.1 lists).isSome = true
    · simpa [hp] using h
    · simp only [hp, Bool.false_eq_true, if_false]
      exact lookup_append_some lists _ name st h

theorem lookup_bindLists (catID : Nat) :
    ∀ (lists : List (String × ListState)) (current : List Channel) (g : Guild)
      (name : String) (st : ListState),
    List.lookup name lists = some st →
    ∃ st2, List.lookup name (bindLists catID lists current g).lists = some st2 ∧
      st2.listID = st.listID ∧ st2.messages = st.messages ∧
      (∀ c, st.channelID = some c → st2 = st) := by
  intro lists
  induction lists with
  | nil => intro current g name st h; simp [List.lookup] at h
  | cons p rest ih =>
    intro current g name st h
    obtain ⟨n1, st1⟩ := p
    cases hb : (name == n1) with
    | true =>
      have hst : st1 = st := by
        have := h
        simp only [List.lookup, hb] at this
        exact Option.some.inj this
      subst hst
      cases hch : st1.channelID with
      | some c =>
        refine ⟨st1, ?_, rfl, rfl, fun _ _ => rfl⟩
        simp [bindLists, hch, List.lookup, hb]
      | none =>
        cases hf : current.find?
            (fun ch => ch.parent == some catID && ch.name == n1.toLower) with
        | some ch =>
          refine ⟨{ st1 with channelID := some ch.id }, ?_, rfl, rfl, ?_⟩
          · simp [bindLists, hch, hf, List.lookup, hb]
          · intro c hc
            exact absurd hc (by simp)
        | none =>
          refine ⟨{ st1 with channelID := some g.nextID }, ?_, rfl, rfl, ?_⟩
          · simp [bindLists, hch, hf, List.lookup, hb, createGuildChannel]
          · intro c hc
            exact absurd hc (by simp)
    | false =>
      have h2 : List.lookup name rest = some st := by
        simpa [List.lookup, hb] using h
      cases hch : st1.channelID with
      | some c =>
        obtain ⟨st2, hl, hid, hm, hcpres⟩ := ih current g name st h2
        exact ⟨st2, by simp [bindLists, hch, List.lookup, hb, hl], hid, hm, hcpres⟩
      | none =>
        cases hf : current.find?
            (fun ch => ch.parent == some catID && ch.name == n1.toLower) with
        | some ch =>
          obtain ⟨st2, hl, hid, hm, hcpres⟩ := ih current g name st h2
          exact ⟨st2, by simp [bindLists, hch, hf, List.lookup, hb, hl], hid, hm,
            hcpres⟩
        | none =>
          obtain ⟨st2, hl, hid, hm, hcpres⟩ :=
            ih (current ++ [(createGuildChannel g n1 GUILD_TEXT (some catID)).1])
              (createGuildChannel g n1 GUILD_TEXT (some catID)).2 name st h2
          exact ⟨st2, by simp [bindLists, hch, hf, List.lookup, hb, hl], hid, hm,
            hcpres⟩

theorem lookup_channelMaintenance (catName : String)
    (lists : List (String × ListState)) (g : Guild) (name : String)
    (st : ListState) (h : List.lookup name lists = some st) :
    ∃ st2, List.lookup name (channelMaintenance catName lists g).lists = some st2 ∧
      st2.listID = st.listID ∧ st2.messages = st.messages ∧
      (∀ c, st.channelID = some c → st2 = st) := by
  unfold channelMaintenance
  cases findCategoryLoop g.channels catName with
  | some cat =>
    obtain ⟨st2, hl, hid, hm, hc⟩ := lookup_bindLists cat.id lists
      (g.channels.filter (fun ch => ch.parent == some cat.id)) g name st h
    exact ⟨st2, by simpa [maintainWithCategory] using hl, hid, hm, hc⟩
  | none =>
    obtain ⟨st2, hl, hid, hm, hc⟩ := lookup_bindLists
      (createGuildChannel g catName GUILD_CATEGORY none).1.id lists
      ((createGuildChannel g catName GUILD_CATEGORY none).2.channels.filter
        (fun ch => ch.parent ==
          some (createGuildChannel g catName GUILD_CATEGORY none).1.id))
      (createGuildChannel g catName GUILD_CATEGORY none).2 name st h
    exact ⟨st2, by simpa [maintainWithCategory] using hl, hid, hm, hc⟩

theorem lookup_enqueuePhase (newMsgs : String → List String) :
    ∀ (lists : List (String × ListState)) (name : String) (st : ListState),
    List.lookup name lists = some st →
    List.lookup name (enqueuePhase newMsgs lists)
      = some { st with messages := st.messages ++ newMsgs name } := by
  intro lists
  induction lists with
  | nil => intro name st h; simp [List.lookup] at h
  | cons p rest ih =>
    intro name st h
    obtain ⟨n1, st1⟩ := p
    cases hb : (name == n1) with
    | true =>
      have hn : name = n1 := eq_of_beq hb
      subst hn
      have hst : st1 = st := by
        have := h
        simp only [List.lookup, beq_self_eq_true] at this
        exact Option.some.inj this
      subst hst
      simp [enqueuePhase, List.lookup]
    | false =>
      have h2 : List.lookup name rest = some st := by
        simpa [List.lookup, hb] using h
      simp only [enqueuePhase, List.map_cons, List.lookup, hb]
      exact ih name st h2

theorem lookup_sendMessagesLoop {σ : Type} (env : SendEnv σ) :
    ∀ (lists : List (String × ListState)) (s : σ) (name : String)
      (st : ListState),
    List.lookup name lists = some st →
    ∃ st2, List.lookup name (sendMessagesLoop env lists s).1 = some st2 ∧
      st2.listID = st.listID ∧ st2.channelID = st.channelID := by
  intro lists
  induction lists with
  | nil => intro s name st h; simp [List.lookup] at h
  | cons p rest ih =>
    intro s name st h
    obtain ⟨n1, st1⟩ := p
    cases hflag : (drainList env st1.channelID st1.messages s).2.2.2 with
    | true =>
      have hs : (sendMessagesLoop env ((n1, st1) :: rest) s).1
          = (n1, { st1 with
              messages := (drainList env st1.channelID st1.messages s).2.1 })
            :: rest := by
        simp only [sendMessagesLoop, hflag, if_true]
      rw [hs]
      cases hb : (name == n1) with
      | true =>
        have hst : st1 = st := by
          have := h
          simp only [List.lookup, hb] at this
          exact Option.some.inj this
        subst hst
        exact ⟨{ st1 with
            messages := (drainList env st1.channelID st1.messages s).2.1 },
          by simp [List.lookup, hb], rfl, rfl⟩
      | false =>
        have h2 : List.lookup name rest = some st := by
          simpa [List.lookup, hb] using h
        exact ⟨st, by simpa [List.lookup, hb] using h2, rfl, rfl⟩
    | false =>
      have hs : (sendMessagesLoop env ((n1, st1) :: rest) s).1
          = (n1, { st1 with
              messages := (drainList env st1.channelID st1.messages s).2.1 })
            :: (sendMessagesLoop env rest
                (drainList env st1.channelID st1.messages s).2.2.1).1 := by
        simp only [sendMessagesLoop, hflag, Bool.false_eq_true, if_false]
      rw [hs]
      cases hb : (name == n1) with
      | true =>
        have hst : st1 = st := by
          have := h
          simp only [List.lookup, hb] at this
          exact Option.some.inj this
        subst hst
        exact ⟨{ st1 with
            messages := (drainList env st1.channelID st1.messages s).2.1 },
          by simp [List.lookup, hb], rfl, rfl⟩
      | false =>
        have h2 : List.lookup name rest = some st := by
          simpa [List.lookup, hb] using h
        obtain ⟨st2, hl, hid, hch⟩ :=
          ih (drainList env st1.channelID st1.messages s).2.2.1 name st h2
        exact ⟨st2, by simpa [List.lookup, hb] using hl, hid, hch⟩

/-- C9: `channelID` is written at most once.  Existing entries of the
name-keyed list map are (1) returned unchanged by `updateTwitterLists`
(which only adds new names and never removes entries), (2) returned
completely unchanged by `channelMaintenance` whenever their `channelID`
is already bound (the binding loop only assigns when it is `None`),
(3) only extended on the `messages` field by the fetch-and-enqueue phase,
(4) never changed on `channelID` or `listID` by `sendMessages`; and
(5) through a whole `doUpdate` cycle, an entry bound to channel `c`
remains present and bound to exactly `c`. -/
theorem channelID_write_once :
    (∀ (fetched : List (String × Nat)) (lists : List (String × ListState))
       (name : String) (st : ListState),
       List.lookup name lists = some st →
       List.lookup name (updateTwitterLists fetched lists) = some st) ∧
    (∀ (catName : String) (lists : List (String × ListState)) (g : Guild)
       (name : String) (st : ListState) (c : Nat),
       List.lookup name lists = some st → st.channelID = some c →
       List.lookup name (channelMaintenance catName lists g).lists = some st) ∧
    (∀ (newMsgs : String → List String) (lists : List (String × ListState))
       (name : String) (st : ListState),
       List.lookup name lists = some st →
       List.lookup name (enqueuePhase newMsgs lists)
         = some { st with messages := st.messages ++ newMsgs name }) ∧
    (∀ (σ : Type) (env : SendEnv σ) (lists : List (String × ListState))
       (s : σ) (name : String) (st : ListState),
       List.lookup name lists = some st →
       ∃ st2, List.lookup name (sendMessagesLoop env lists s).1 = some st2 ∧
         st2.listID = st.listID ∧ st2.channelID = st.channelID) ∧
    (∀ (σ : Type) (catName : String) (fetched : List (String × Nat))
       (newMsgs : String → List String) (env : SendEnv σ) (g : Guild)
       (lists : List (String × ListState)) (s : σ) (flag : Bool)
       (name : String) (st : ListState) (c : Nat),
       List.lookup name lists = some st → st.channelID = some c →
       ∃ st2, List.lookup name
           (doUpdate catName fetched newMsgs env g lists s flag).lists
           = some st2 ∧ st2.channelID = some c) := by
  refine ⟨lookup_updateTwitterLists, ?_, lookup_enqueuePhase,
    fun σ env lists s name st h => lookup_sendMessagesLoop env lists s name st h,
    ?_⟩
  · intro catName lists g name st c h hc
    obtain ⟨st2, hl, _, _, hpres⟩ := lookup_channelMaintenance catName lists g
      name st h
    rw [hpres c hc] at hl
    exact hl
  · intro σ catName fetched newMsgs env g lists s flag name st c h hc
    have h1 := lookup_updateTwitterLists fetched lists name st h
    obtain ⟨stM, hM, _, _, hMpres⟩ := lookup_channelMaintenance catName
      (updateTwitterLists fetched lists) g name st h1
    rw [hMpres c hc] at hM
    have h2 := lookup_enqueuePhase newMsgs
      (channelMaintenance catName (updateTwitterLists fetched lists) g).lists
      name st hM
    cases flag with
    | true =>
      refine ⟨{ st with messages := st.messages ++ newMsgs name }, ?_, hc⟩
      show List.lookup name (enqueuePhase newMsgs
        (channelMaintenance catName (updateTwitterLists fetched lists) g).lists)
        = _
      exact h2
    | false =>
      obtain ⟨st2, hl, _, hch⟩ := lookup_sendMessagesLoop env
        (enqueuePhase newMsgs
          (channelMaintenance catName (updateTwitterLists fetched lists) g).lists)
        s name _ h2
      refine ⟨st2, ?_, by rw [hch]; exact hc⟩
      show List.lookup name (sendMessagesLoop env (enqueuePhase newMsgs
        (channelMaintenance catName (updateTwitterLists fetched lists) g).lists)
        s).1 = some st2
      exact hl

/-- Witness for the C9 theorem at a concrete input. -/
theorem channelID_write_once_witness :
    List.lookup "A" [("A", (⟨1, some 5, []⟩ : ListState))] = some ⟨1, some 5, []⟩ ∧
    (⟨1, some 5, []⟩ : ListState).channelID = some 5 ∧
    (∃ st2, List.lookup "A"
        (doUpdate "cat" [] (fun _ => []) (⟨fun _ _ => false, fun s _ _ => s⟩ :
          SendEnv Nat) ⟨[], 0⟩ [("A", ⟨1, some 5, []⟩)] 0 true).lists
        = some st2 ∧ st2.channelID = some 5) :=
  ⟨by decide, by decide,
   channelID_write_once.2.2.2.2 Nat "cat" [] (fun _ => [])
     (⟨fun _ _ => false, fun s _ _ => s⟩ : SendEnv Nat) ⟨[], 0⟩
     [("A", ⟨1, some 5, []⟩)] 0 true "A" ⟨1, some 5, []⟩ 5 (by decide) (by decide)⟩

/-! ## Reconciliation lemmas: the diff batch -/

theorem diffPairs_self (l : List Channel) : ∀ i, diffPairs i l l = [] := by
  induction l with
  | nil => intro i; rfl
  | cons c cs ih => intro i; simp [diffPairs, ih]

theorem diffPairs_eq_nil (s : List Channel) :
    ∀ (o : List Channel) (i : Nat), s.length = o.length →
    diffPairs i s o = [] → s = o := by
  induction s with
  | nil =>
    intro o i hlen _
    cases o with
    | nil => rfl
    | cons _ _ => simp at hlen
  | cons c cs ih =>
    intro o i hlen h
    cases o with
    | nil => simp at hlen
    | cons o1 os =>
      by_cases hco : c = o1
      · subst hco
        simp only [diffPairs, if_pos rfl, List.nil_append] at h
        have := ih os (i + 1) (by simpa using hlen) h
        rw [this]
      · simp [diffPairs, hco] at h

theorem diffPairs_mem (pr : Nat × Nat) :
    ∀ (s o : List Channel) (i : Nat), pr ∈ diffPairs i s o →
    ∃ ch ∈ s, pr.1 = ch.id := by
  intro s
  induction s with
  | nil => intro o i h; simp [diffPairs] at h
  | cons c cs ih =>
    intro o i h
    cases o with
    | nil => simp [diffPairs] at h
    | cons o1 os =>
      simp only [diffPairs] at h
      rcases List.mem_append.1 h with h | h
      · by_cases hco : c = o1
        · simp [hco] at h
        · simp only [if_neg hco, List.mem_singleton] at h
          exact ⟨c, by simp, by rw [h]⟩
      · obtain ⟨ch, hch, hid⟩ := ih os (i + 1) h
        exact ⟨ch, by simp [hch], hid⟩

theorem lookup_diffPairs_not_mem (cid : Nat) :
    ∀ (s o : List Channel) (i : Nat), cid ∉ s.map (fun c => c.id) →
    List.lookup cid (diffPairs i s o) = none := by
  intro s
  induction s with
  | nil => intro o i _; cases o <;> rfl
  | cons c cs ih =>
    intro o i hmem
    cases o with
    | nil => rfl
    | cons o1 os =>
      have h1 : cid ≠ c.id := by
        intro h
        exact hmem (by simp [h])
      have h2 : cid ∉ cs.map (fun x => x.id) := by
        intro h
        exact hmem (by simp [h])
      by_cases hco : c = o1
      · simp only [diffPairs, if_pos hco, List.nil_append]
        exact ih os (i + 1) h2
      · simp only [diffPairs, if_neg hco, List.singleton_append, List.lookup,
          beq_eq_false_iff_ne.2 h1]
        exact ih os (i + 1) h2

theorem lookup_diffPairs (d : Channel) :
    ∀ (s o : List Channel) (i j : Nat), s.length = o.length →
    (s.map (fun c => c.id)).Nodup → j < s.length →
    List.lookup (s.getD j d).id (diffPairs i s o)
      = if s.getD j d ≠ o.getD j d then some (i + j) else none := by
  intro s
  induction s with
  | nil => intro o i j _ _ hj; simp at hj
  | cons c cs ih =>
    intro o i j hlen hnd hj
    cases o with
    | nil => simp at hlen
    | cons o1 os =>
      have hnd0 : c.id ∉ cs.map (fun x => x.id) ∧
          (cs.map (fun x => x.id)).Nodup := by
        have h2 := hnd
        rw [List.map_cons, List.nodup_cons] at h2
        exact h2
      obtain ⟨hnd1, hnd2⟩ := hnd0
      cases j with
      | zero =>
        simp only [List.getD_cons_zero]
        by_cases hco : c = o1
        · rw [if_neg (show ¬ c ≠ o1 by simp [hco])]
          simp only [diffPairs, if_pos hco, List.nil_append]
          exact lookup_diffPairs_not_mem c.id cs os (i + 1) hnd1
        · rw [if_pos hco]
          simp only [diffPairs, if_neg hco, List.singleton_append, List.lookup,
            beq_self_eq_true]
          simp
      | succ j =>
        have hj2 : j < cs.length := by simpa using hj
        have hlen2 : cs.length = os.length := by simpa using hlen
        have hmem : cs.getD j d ∈ cs := by
          rw [List.getD_eq_getElem cs d hj2]
          exact List.getElem_mem hj2
        have hne : (cs.getD j d).id ≠ c.id := by
          intro h
          apply hnd1
          rw [← h]
          exact List.mem_map_of_mem (fun x => x.id) hmem
        simp only [List.getD_cons_succ]
        have harith : i + 1 + j = i + (j + 1) := by omega
        by_cases hco : c = o1
        · simp only [diffPairs, if_pos hco, List.nil_append]
          rw [ih os (i + 1) j hlen2 hnd2 hj2, harith]
        · simp only [diffPairs, if_neg hco, List.singleton_append, List.lookup,
            beq_eq_false_iff_ne.2 hne]
          rw [ih os (i + 1) j hlen2 hnd2 hj2, harith]

/-! ## Reconciliation lemmas: sorting by assigned position keys -/

theorem le_of_mem_enumFrom {α : Type} (l : List α) :
    ∀ (n : Nat) (p : Nat × α), p ∈ List.enumFrom n l → n ≤ p.1 := by
  induction l with
  | nil => intro n p h; simp [List.enumFrom] at h
  | cons a l ih =>
    intro n p h
    rw [List.enumFrom] at h
    rcases List.mem_cons.1 h with h | h
    · subst h; exact Nat.le_refl n
    · exact Nat.le_of_succ_le (ih (n + 1) p h)

theorem sorted_keyLe_enumFrom (l : List Channel) :
    ∀ n, List.Sorted keyLe (List.enumFrom n l) := by
  induction l with
  | nil => intro n; simp [List.enumFrom]
  | cons a l ih =>
    intro n
    rw [List.enumFrom]
    exact List.sorted_cons.2
      ⟨fun p hp => Nat.le_of_succ_le (le_of_mem_enumFrom l (n + 1) p hp),
       ih (n + 1)⟩

theorem sorted_keyLe_enum (l : List Channel) : List.Sorted keyLe l.enum :=
  sorted_keyLe_enumFrom l 0

theorem enumFrom_eq_map_range {α : Type} (d : α) (l : List α) :
    ∀ n, List.enumFrom n l
      = (List.range l.length).map (fun i => (n + i, l.getD i d)) := by
  induction l with
  | nil => intro n; rfl
  | cons a l ih =>
    intro n
    rw [List.enumFrom, ih (n + 1), List.length_cons, List.range_succ_eq_map]
    simp only [List.map_cons, List.map_map]
    congr 1
    apply List.map_congr_left
    intro i hi
    have h1 : n + 1 + i = n + (i + 1) := by omega
    simp [h1, Function.comp, List.getD_cons_succ]

theorem enum_eq_map_range {α : Type} (d : α) (l : List α) :
    l.enum = (List.range l.length).map (fun i => (i, l.getD i d)) := by
  rw [List.enum_eq_enumFrom, enumFrom_eq_map_range d l 0]
  simp

theorem eq_of_perm_sorted_keys (l1 : List (Nat × Channel)) :
    ∀ l2 : List (Nat × Channel), l1.Perm l2 → List.Sorted keyLe l1 →
    List.Sorted keyLe l2 → (l2.map Prod.fst).Nodup → l1 = l2 := by
  induction l1 with
  | nil =>
    intro l2 hp _ _ _
    exact (hp.symm.eq_nil).symm
  | cons a l1 ih =>
    intro l2 hp hs1 hs2 hnd2
    cases l2 with
    | nil => exact absurd hp.eq_nil (by simp)
    | cons b l2 =>
      have hnd2a : b.1 ∉ l2.map Prod.fst ∧ (l2.map Prod.fst).Nodup := by
        have h2 := hnd2
        rw [List.map_cons, List.nodup_cons] at h2
        exact h2
      have hab : a = b := by
        have ha : a ∈ b :: l2 := hp.subset (List.mem_cons_self a l1)
        rcases List.mem_cons.1 ha with h | h
        · exact h
        · have hba : keyLe b a := (List.sorted_cons.1 hs2).1 a h
          have hb : b ∈ a :: l1 := hp.symm.subset (List.mem_cons_self b l2)
          rcases List.mem_cons.1 hb with h2 | h2
          · exact h2.symm
          · have hab2 : keyLe a b := (List.sorted_cons.1 hs1).1 b h2
            have hfst : a.1 = b.1 := Nat.le_antisymm hab2 hba
            exfalso
            apply hnd2a.1
            rw [← hfst]
            exact List.mem_map_of_mem Prod.fst h
      subst hab
      have htail : l1.Perm l2 := hp.cons_inv
      rw [ih l2 htail (List.sorted_cons.1 hs1).2 (List.sorted_cons.1 hs2).2
        hnd2a.2]

/-- The central reconciliation fact: applying the diff batch that
`channelMaintenance` computes (sorted-vs-current diff, unmentioned
channels keeping their index) reorders the bucket into exactly the
name-sorted order. -/
theorem sortByKey_diffPairs (old : List Channel)
    (hnd : (old.map (fun c => c.id)).Nodup) :
    sortByKey (diffPairs 0 (List.insertionSort nameLe old) old) old
      = List.insertionSort nameLe old := by
  set s := List.insertionSort nameLe old with hs_def
  have hperm : s.Perm old := List.perm_insertionSort nameLe old
  have hlen : s.length = old.length := hperm.length_eq
  have hndOld : old.Nodup := List.Nodup.of_map _ hnd
  have hndSids : (s.map (fun c => c.id)).Nodup :=
    ((hperm.map (fun c => c.id)).nodup_iff).2 hnd
  have hgetDinj : ∀ i1 i2, i1 < old.length → i2 < old.length →
      old.getD i1 default = old.getD i2 default → i1 = i2 := by
    intro i1 i2 h1 h2 he
    have e1 : old.get ⟨i1, h1⟩ = old.get ⟨i2, h2⟩ := by
      rw [← List.getD_eq_get old default h1, ← List.getD_eq_get old default h2]
      exact he
    exact congrArg Fin.val ((hndOld.get_inj_iff).1 e1)
  have hkey : ∀ i, i < old.length → ∃ j, j < old.length ∧
      s.getD j default = old.getD i default ∧
      keyOf (diffPairs 0 s old) i (old.getD i default) = j := by
    intro i hi
    have hmem : old.getD i default ∈ old := by
      rw [List.getD_eq_getElem old default hi]
      exact List.getElem_mem hi
    obtain ⟨⟨j, hj⟩, hval⟩ := List.mem_iff_get.1 (hperm.mem_iff.2 hmem)
    have hjn : j < old.length := by rw [← hlen]; exact hj
    have hgetD : s.getD j default = old.getD i default := by
      rw [List.getD_eq_get s default hj]
      exact hval
    have hlookup := lookup_diffPairs default s old 0 j hlen hndSids hj
    by_cases hcase : s.getD j default = old.getD j default
    · have heq : old.getD j default = old.getD i default := by
        rw [← hcase]
        exact hgetD
      have hij : i = j := (hgetDinj j i hjn hi heq).symm
      refine ⟨j, hjn, hgetD, ?_⟩
      unfold keyOf
      rw [show (old.getD i default).id = (s.getD j default).id by rw [hgetD],
        hlookup, if_neg (not_not_intro hcase)]
      simpa using hij
    · refine ⟨j, hjn, hgetD, ?_⟩
      unfold keyOf
      rw [show (old.getD i default).id = (s.getD j default).id by rw [hgetD],
        hlookup, if_pos hcase]
      simp
  have hprops : ∀ i, i < old.length →
      keyOf (diffPairs 0 s old) i (old.getD i default) < old.length ∧
      s.getD (keyOf (diffPairs 0 s old) i (old.getD i default)) default
        = old.getD i default := by
    intro i hi
    obtain ⟨j, hj, hsj, hkeyi⟩ := hkey i hi
    rw [hkeyi]
    exact ⟨hj, hsj⟩
  have hinj : ∀ i1 ∈ List.range old.length, ∀ i2 ∈ List.range old.length,
      keyOf (diffPairs 0 s old) i1 (old.getD i1 default)
        = keyOf (diffPairs 0 s old) i2 (old.getD i2 default) → i1 = i2 := by
    intro i1 h1 i2 h2 heq
    rw [List.mem_range] at h1 h2
    have p1 := (hprops i1 h1).2
    have p2 := (hprops i2 h2).2
    rw [heq] at p1
    exact hgetDinj i1 i2 h1 h2 (p1.symm.trans p2)
  have hK : old.enum.map
        (fun ic => (keyOf (diffPairs 0 s old) ic.1 ic.2, ic.2))
      = (List.range old.length).map
          (fun i => (keyOf (diffPairs 0 s old) i (old.getD i default),
            old.getD i default)) := by
    rw [enum_eq_map_range (default : Channel) old, List.map_map]
    rfl
  have hT : s.enum = (List.range old.length).map
      (fun j => (j, s.getD j default)) := by
    rw [enum_eq_map_range (default : Channel) s, hlen]
  have hmapperm : ((List.range old.length).map
        (fun i => keyOf (diffPairs 0 s old) i (old.getD i default))).Perm
      (List.range old.length) := by
    apply List.Subperm.perm_of_length_le
    · apply List.subperm_of_subset
      · exact List.Nodup.map_on hinj (List.nodup_range _)
      · intro x hx
        obtain ⟨i, hi, rfl⟩ := List.mem_map.1 hx
        rw [List.mem_range] at hi ⊢
        exact (hprops i hi).1
    · simp
  have hKT : (old.enum.map
        (fun ic => (keyOf (diffPairs 0 s old) ic.1 ic.2, ic.2))).Perm s.enum := by
    rw [hK, hT]
    have hcomp : (List.range old.length).map
          (fun i => (keyOf (diffPairs 0 s old) i (old.getD i default),
            old.getD i default))
        = ((List.range old.length).map
            (fun i => keyOf (diffPairs 0 s old) i (old.getD i default))).map
            (fun j => (j, s.getD j default)) := by
      rw [List.map_map]
      apply List.map_congr_left
      intro i hi
      rw [List.mem_range] at hi
      simp only [Function.comp_apply]
      rw [(hprops i hi).2]
    rw [hcomp]
    exact hmapperm.map (fun j => (j, s.getD j default))
  have hndT : (s.enum.map Prod.fst).Nodup := by
    rw [List.enum_map_fst]
    exact List.nodup_range _
  have hfinal : List.insertionSort keyLe (old.enum.map
        (fun ic => (keyOf (diffPairs 0 s old) ic.1 ic.2, ic.2)))
      = s.enum :=
    eq_of_perm_sorted_keys _ s.enum
      ((List.perm_insertionSort keyLe _).trans hKT)
      (List.sorted_insertionSort keyLe _) (sorted_keyLe_enum s) hndT
  unfold sortByKey
  rw [hfinal]
  simp [List.enum_map_snd s]

/-! ## Reconciliation lemmas: bucket replacement and category search -/

theorem sortByKey_perm (pairs : List (Nat × Nat)) (bucket : List Channel) :
    (sortByKey pairs bucket).Perm bucket := by
  unfold sortByKey
  have h1 := (List.perm_insertionSort keyLe
    (bucket.enum.map (fun ic => (keyOf pairs ic.1 ic.2, ic.2)))).map
    (fun kc : Nat × Channel => kc.2)
  have h2 : (bucket.enum.map
        (fun ic => (keyOf pairs ic.1 ic.2, ic.2))).map
        (fun kc : Nat × Channel => kc.2) = bucket := by
    rw [List.map_map]
    have h3 : ((fun kc : Nat × Channel => kc.2) ∘
        (fun ic : Nat × Channel => (keyOf pairs ic.1 ic.2, ic.2))) = Prod.snd :=
      rfl
    rw [h3, List.enum_map_snd]
  rw [h2] at h1
  exact h1

theorem replaceBucket_filter (p : Option Nat) :
    ∀ (chans nb : List Channel), (∀ x ∈ nb, x.parent = p) →
    nb.length = (chans.filter (fun c => c.parent == p)).length →
    (replaceBucket p nb chans).filter (fun c => c.parent == p) = nb := by
  intro chans
  induction chans with
  | nil =>
    intro nb _ hlen
    simp only [replaceBucket, List.filter_nil]
    exact (List.length_eq_zero.1 (by simpa using hlen)).symm
  | cons c cs ih =>
    intro nb hmem hlen
    cases hcb : (c.parent == p) with
    | true =>
      cases nb with
      | nil => simp [List.filter_cons, hcb] at hlen
      | cons x nb2 =>
        have hx : x.parent = p := hmem x (by simp)
        have hxb : (x.parent == p) = true := by simp [hx]
        have hlen2 : nb2.length = (cs.filter (fun c => c.parent == p)).length := by
          simp [List.filter_cons, hcb] at hlen
          exact hlen
        simp only [replaceBucket, hcb, if_true, List.headD_cons, List.tail_cons]
        rw [List.filter_cons, if_pos (by simp [hxb])]
        rw [ih nb2 (fun y hy => hmem y (by simp [hy])) hlen2]
    | false =>
      have hlen2 : nb.length = (cs.filter (fun c => c.parent == p)).length := by
        simpa [List.filter_cons, hcb] using hlen
      simp only [replaceBucket, hcb, Bool.false_eq_true, if_false]
      rw [List.filter_cons, if_neg (by simp [hcb])]
      exact ih nb hmem hlen2

theorem findCatFold_replaceBucket (catName : String) (p : Option Nat) :
    ∀ (chans nb : List Channel) (acc : Option Channel),
    (∀ x ∈ nb, ¬(x.type == GUILD_CATEGORY && x.name == catName) = true) →
    (∀ c ∈ chans, c.parent = p →
      ¬(c.type == GUILD_CATEGORY && c.name == catName) = true) →
    (replaceBucket p nb chans).foldl
        (fun acc ch =>
          if ch.type == GUILD_CATEGORY && ch.name == catName then some ch
          else acc) acc
      = chans.foldl
          (fun acc ch =>
            if ch.type == GUILD_CATEGORY && ch.name == catName then some ch
            else acc) acc := by
  intro chans
  induction chans with
  | nil => intro nb acc _ _; rfl
  | cons c cs ih =>
    intro nb acc hnb hchans
    cases hcb : (c.parent == p) with
    | true =>
      have hcp : c.parent = p := by simpa using hcb
      have hcnot : ¬(c.type == GUILD_CATEGORY && c.name == catName) = true :=
        hchans c (by simp) hcp
      have hnewnot : ¬((nb.headD c).type == GUILD_CATEGORY &&
          (nb.headD c).name == catName) = true := by
        cases nb with
        | nil => simpa using hcnot
        | cons x nb2 => simpa using hnb x (by simp)
      simp only [replaceBucket, hcb, if_true, List.foldl_cons]
      rw [if_neg hnewnot, if_neg hcnot]
      exact ih nb.tail acc (fun x hx => hnb x (List.mem_of_mem_tail hx))
        (fun c2 h2 => hchans c2 (by simp [h2]))
    | false =>
      simp only [replaceBucket, hcb, Bool.false_eq_true, if_false,
        List.foldl_cons]
      exact ih nb _ hnb (fun c2 h2 => hchans c2 (by simp [h2]))

theorem findCatFold_nonmatching (catName : String) :
    ∀ (extra : List Channel) (acc : Option Channel),
    (∀ x ∈ extra, ¬(x.type == GUILD_CATEGORY && x.name == catName) = true) →
    extra.foldl
        (fun acc ch =>
          if ch.type == GUILD_CATEGORY && ch.name == catName then some ch
          else acc) acc = acc := by
  intro extra
  induction extra with
  | nil => intro acc _; rfl
  | cons x rest ih =>
    intro acc hx
    rw [List.foldl_cons, if_neg (hx x (by simp))]
    exact ih acc (fun y hy => hx y (by simp [hy]))

theorem findCategoryLoop_append (catName : String) (chans extra : List Channel)
    (hextra : ∀ x ∈ extra,
      ¬(x.type == GUILD_CATEGORY && x.name == catName) = true) :
    findCategoryLoop (chans ++ extra) catName = findCategoryLoop chans catName := by
  unfold findCategoryLoop
  rw [List.foldl_append]
  exact findCatFold_nonmatching catName extra _ hextra

theorem findCategoryLoop_matches (catName : String) :
    ∀ (chans : List Channel) (acc : Option Channel) (c : Channel),
    chans.foldl
        (fun acc ch =>
          if ch.type == GUILD_CATEGORY && ch.name == catName then some ch
          else acc) acc = some c →
    (c.type = GUILD_CATEGORY ∧ c.name = catName ∧ c ∈ chans) ∨ acc = some c := by
  intro chans
  induction chans with
  | nil => intro acc c h; exact Or.inr h
  | cons x rest ih =>
    intro acc c h
    rw [List.foldl_cons] at h
    by_cases hx : (x.type == GUILD_CATEGORY && x.name == catName) = true
    · rw [if_pos hx] at h
      rcases ih (some x) c h with h2 | h2
      · exact Or.inl ⟨h2.1, h2.2.1, by simp [h2.2.2]⟩
      · have hxc : x = c := Option.some.inj h2
        subst hxc
        simp only [Bool.and_eq_true, beq_iff_eq] at hx
        exact Or.inl ⟨hx.1, hx.2, by simp⟩
    · rw [if_neg hx] at h
      rcases ih acc c h with h2 | h2
      · exact Or.inl ⟨h2.1, h2.2.1, by simp [h2.2.2]⟩
      · exact Or.inr h2

/-! ## Reconciliation lemmas: the binding loop -/

theorem bindLists_guild_spec (catID : Nat) :
    ∀ (lists : List (String × ListState)) (current : List Channel) (g : Guild),
    ∃ created : List Channel,
      (bindLists catID lists current g).guild.channels
        = g.channels ++ created ∧
      (bindLists catID lists current g).current = current ++ created ∧
      g.nextID ≤ (bindLists catID lists current g).guild.nextID ∧
      (∀ c ∈ created, c.parent = some catID ∧ c.type = GUILD_TEXT) ∧
      ((∀ c ∈ g.channels, c.id < g.nextID) →
        (∀ c ∈ (bindLists catID lists current g).guild.channels,
          c.id < (bindLists catID lists current g).guild.nextID)) ∧
      ((∀ c ∈ g.channels, c.id < g.nextID) →
        (g.channels.map (fun c => c.id)).Nodup →
        ((bindLists catID lists current g).guild.channels.map
          (fun c => c.id)).Nodup) := by
  intro lists
  induction lists with
  | nil =>
    intro current g
    exact ⟨[], by simp [bindLists], by simp [bindLists], Nat.le_refl _,
      by simp, fun h => by simpa [bindLists] using h,
      fun _ h => by simpa [bindLists] using h⟩
  | cons p rest ih =>
    intro current g
    obtain ⟨name, st⟩ := p
    cases hch : st.channelID with
    | some c0 =>
      obtain ⟨created, h1, h2, h3, h4, h5, h6⟩ := ih current g
      refine ⟨created, ?_, ?_, ?_, h4, ?_, ?_⟩ <;>
        simp only [bindLists, hch] <;> [exact h1; exact h2; exact h3;
          exact h5; exact h6]
    | none =>
      cases hf : current.find?
          (fun ch => ch.parent == some catID && ch.name == name.toLower) with
      | some ch =>
        obtain ⟨created, h1, h2, h3, h4, h5, h6⟩ := ih current g
        refine ⟨created, ?_, ?_, ?_, h4, ?_, ?_⟩ <;>
          simp only [bindLists, hch, hf] <;> [exact h1; exact h2; exact h3;
            exact h5; exact h6]
      | none =>
        obtain ⟨created, h1, h2, h3, h4, h5, h6⟩ :=
          ih (current ++ [(createGuildChannel g name GUILD_TEXT (some catID)).1])
            (createGuildChannel g name GUILD_TEXT (some catID)).2
        refine ⟨⟨g.nextID, name, GUILD_TEXT, some catID⟩ :: created,
          ?_, ?_, ?_, ?_, ?_, ?_⟩
        · simp only [bindLists, hch, hf]
          rw [h1]
          simp [createGuildChannel]
        · simp only [bindLists, hch, hf]
          rw [h2]
          simp [createGuildChannel]
        · simp only [bindLists, hch, hf]
          refine Nat.le_trans ?_ h3
          simp [createGuildChannel]
        · intro c hc
          rcases List.mem_cons.1 hc with hc | hc
          · subst hc; exact ⟨rfl, rfl⟩
          · exact h4 c hc
        · intro hlt c hc
          rw [show (bindLists catID ((name, st) :: rest) current g).guild
              = (bindLists catID rest
                  (current ++
                    [(createGuildChannel g name GUILD_TEXT (some catID)).1])
                  (createGuildChannel g name GUILD_TEXT (some catID)).2).guild
            from by simp only [bindLists, hch, hf]] at hc ⊢
          refine h5 ?_ c hc
          intro c2 hc2
          simp only [createGuildChannel, List.mem_append] at hc2
          rcases hc2 with hc2 | hc2
          · exact Nat.lt_trans (hlt c2 hc2) (Nat.lt_succ_self _)
          · simp only [List.mem_singleton] at hc2
            subst hc2
            exact Nat.lt_succ_self _
        · intro hlt hnd
          rw [show (bindLists catID ((name, st) :: rest) current g).guild
              = (bindLists catID rest
                  (current ++
                    [(createGuildChannel g name GUILD_TEXT (some catID)).1])
                  (createGuildChannel g name GUILD_TEXT (some catID)).2).guild
            from by simp only [bindLists, hch, hf]]
          refine h6 ?_ ?_
          · intro c2 hc2
            simp only [createGuildChannel, List.mem_append] at hc2
            rcases hc2 with hc2 | hc2
            · exact Nat.lt_trans (hlt c2 hc2) (Nat.lt_succ_self _)
            · simp only [List.mem_singleton] at hc2
              subst hc2
              exact Nat.lt_succ_self _
          · simp only [createGuildChannel, List.map_append]
            refine List.Nodup.append hnd (by simp) ?_
            intro a ha hb
            simp only [List.map_singleton, List.mem_singleton] at hb
            obtain ⟨c2, hc2, hc2id⟩ := List.mem_map.1 ha
            subst hb
            exact absurd hc2id (Nat.ne_of_lt (hlt c2 hc2))

theorem bindLists_all_bound (catID : Nat) :
    ∀ (lists : List (String × ListState)) (current : List Channel) (g : Guild),
    ∀ q ∈ (bindLists catID lists current g).lists,
      q.2.channelID.isSome = true := by
  intro lists
  induction lists with
  | nil => intro current g q hq; simp [bindLists] at hq
  | cons p rest ih =>
    intro current g q hq
    obtain ⟨name, st⟩ := p
    cases hch : st.channelID with
    | some c0 =>
      simp only [bindLists, hch] at hq
      rcases List.mem_cons.1 hq with hq | hq
      · subst hq; simp [hch]
      · exact ih current g q hq
    | none =>
      cases hf : current.find?
          (fun ch => ch.parent == some catID && ch.name == name.toLower) with
      | some ch =>
        simp only [bindLists, hch, hf] at hq
        rcases List.mem_cons.1 hq with hq | hq
        · subst hq; simp
        · exact ih current g q hq
      | none =>
        simp only [bindLists, hch, hf] at hq
        rcases List.mem_cons.1 hq with hq | hq
        · subst hq; simp
        · exact ih _ _ q hq

theorem bindLists_id (catID : Nat) :
    ∀ (lists : List (String × ListState)) (current : List Channel) (g : Guild),
    (∀ q ∈ lists, q.2.channelID.isSome = true) →
    bindLists catID lists current g = ⟨lists, current, g, 0⟩ := by
  intro lists
  induction lists with
  | nil => intro current g _; rfl
  | cons p rest ih =>
    intro current g hb
    obtain ⟨name, st⟩ := p
    cases hch : st.channelID with
    | some c0 =>
      simp only [bindLists, hch, ih current g (fun q hq => hb q (by simp [hq]))]
    | none =>
      have := hb (name, st) (by simp)
      rw [hch] at this
      simp at this

theorem find?_id_unique :
    ∀ (l : List Channel) (c : Channel), c ∈ l →
    (l.map (fun x => x.id)).Nodup →
    l.find? (fun x => x.id == c.id) = some c := by
  intro l
  induction l with
  | nil => intro c hc; simp at hc
  | cons a rest ih =>
    intro c hc hnd
    have hnd2 : a.id ∉ rest.map (fun x => x.id) ∧
        (rest.map (fun x => x.id)).Nodup := by
      have h2 := hnd
      rw [List.map_cons, List.nodup_cons] at h2
      exact h2
    rcases List.mem_cons.1 hc with hc | hc
    · subst hc
      rw [List.find?_cons_of_pos _ (by simp)]
    · have hne : (a.id == c.id) = false := by
        refine beq_eq_false_iff_ne.2 ?_
        intro h
        exact hnd2.1 (h ▸ List.mem_map_of_mem (fun x => x.id) hc)
      rw [List.find?_cons_of_neg _ (by simp [hne])]
      exact ih c hc hnd2.2

/-- Post-state of one `maintainWithCategory` call on a well-formed guild:
the category search is undisturbed, every list ends up bound, and the
managed bucket ends up sorted by name. -/
theorem maintain_post (catName : String) (cat : Channel)
    (lists : List (String × ListState)) (g1 : Guild) (cc : Nat)
    (hnd : (g1.channels.map (fun c => c.id)).Nodup)
    (hlt : ∀ c ∈ g1.channels, c.id < g1.nextID)
    (hcatWF : ∀ c ∈ g1.channels, c.type = GUILD_CATEGORY → c.parent = none) :
    findCategoryLoop (maintainWithCategory cat lists g1 cc).guild.channels
        catName
      = findCategoryLoop g1.channels catName ∧
    (∀ q ∈ (maintainWithCategory cat lists g1 cc).lists,
      q.2.channelID.isSome = true) ∧
    List.Sorted nameLe
      ((maintainWithCategory cat lists g1 cc).guild.channels.filter
        (fun c => c.parent == some cat.id)) := by
  obtain ⟨created, hchan, hcur, hnext2, hcreated, hltimp, hndimp⟩ :=
    bindLists_guild_spec cat.id lists
      (g1.channels.filter (fun ch => ch.parent == some cat.id)) g1
  set b := bindLists cat.id lists
    (g1.channels.filter (fun ch => ch.parent == some cat.id)) g1 with hbdef
  have hR : maintainWithCategory cat lists g1 cc
      = ⟨b.lists,
         (modifyGuildChannelPositions b.guild
           (diffPairs 0 (List.insertionSort nameLe b.current) b.current)).1,
         cc + b.creations,
         (modifyGuildChannelPositions b.guild
           (diffPairs 0 (List.insertionSort nameLe b.current) b.current)).2,
         diffPairs 0 (List.insertionSort nameLe b.current) b.current⟩ := rfl
  have hb_nodup : (b.guild.channels.map (fun c => c.id)).Nodup := hndimp hlt hnd
  have hb_WF3 : ∀ c ∈ b.guild.channels,
      c.type = GUILD_CATEGORY → c.parent = none := by
    intro c hc htype
    rw [hchan] at hc
    rcases List.mem_append.1 hc with hc | hc
    · exact hcatWF c hc htype
    · exact absurd (((hcreated c hc).2).symm.trans htype) (by decide)
  have hα : b.guild.channels.filter (fun c => c.parent == some cat.id)
      = b.current := by
    rw [hchan, hcur, List.filter_append]
    congr 1
    refine List.filter_eq_self.2 ?_
    intro a ha
    simp [(hcreated a ha).1]
  have hcreated_nonmatch : ∀ x ∈ created,
      ¬(x.type == GUILD_CATEGORY && x.name == catName) = true := by
    intro x hx hm
    simp only [Bool.and_eq_true, beq_iff_eq] at hm
    exact absurd (((hcreated x hx).2).symm.trans hm.1) (by decide)
  have hfindb : findCategoryLoop b.guild.channels catName
      = findCategoryLoop g1.channels catName := by
    rw [hchan]
    exact findCategoryLoop_append catName g1.channels created hcreated_nonmatch
  have hnonmatch_parent : ∀ c ∈ b.guild.channels, c.parent = some cat.id →
      ¬(c.type == GUILD_CATEGORY && c.name == catName) = true := by
    intro c hc hp hm
    simp only [Bool.and_eq_true, beq_iff_eq] at hm
    have h2 := hb_WF3 c hc hm.1
    rw [hp] at h2
    exact Option.noConfusion h2
  have hbound : ∀ q ∈ (maintainWithCategory cat lists g1 cc).lists,
      q.2.channelID.isSome = true := by
    intro q hq
    rw [hR] at hq
    exact bindLists_all_bound cat.id lists _ g1 q hq
  have hsorted := List.sorted_insertionSort nameLe b.current
  have hpermS : (List.insertionSort nameLe b.current).Perm b.current :=
    List.perm_insertionSort nameLe b.current
  have hcur_nodup : (b.current.map (fun c => c.id)).Nodup := by
    rw [← hα]
    exact List.Nodup.sublist ((List.filter_sublist _).map _) hb_nodup
  rcases hpairs : diffPairs 0 (List.insertionSort nameLe b.current) b.current
    with _ | ⟨pr, prest⟩
  · rw [hpairs] at hR
    have hmod : modifyGuildChannelPositions b.guild [] = (b.guild, 0) := rfl
    have hSeq : List.insertionSort nameLe b.current = b.current :=
      diffPairs_eq_nil _ _ 0 (List.length_insertionSort _ _) hpairs
    refine ⟨?_, hbound, ?_⟩
    · rw [hR]
      simp only [hmod]
      exact hfindb
    · rw [hR]
      simp only [hmod]
      rw [hα]
      exact hSeq ▸ hsorted
  · rw [hpairs] at hR
    have hmem_pr : pr ∈ diffPairs 0 (List.insertionSort nameLe b.current)
        b.current := by
      rw [hpairs]
      simp
    obtain ⟨ch, hchS, hprid⟩ := diffPairs_mem pr _ _ 0 hmem_pr
    have hchCur : ch ∈ b.current := (hpermS.mem_iff).1 hchS
    have hchFil : ch ∈ b.guild.channels.filter
        (fun c => c.parent == some cat.id) := by
      rw [hα]
      exact hchCur
    have hchG : ch ∈ b.guild.channels := (List.mem_filter.1 hchFil).1
    have hchparent : ch.parent = some cat.id := by
      simpa using (List.mem_filter.1 hchFil).2
    have hfind : b.guild.channels.find? (fun c => c.id == pr.1) = some ch := by
      rw [hprid]
      exact find?_id_unique b.guild.channels ch hchG hb_nodup
    have hmod1 : (modifyGuildChannelPositions b.guild (pr :: prest)).1.channels
        = replaceBucket (some cat.id)
            (sortByKey (pr :: prest)
              (b.guild.channels.filter (fun c => c.parent == some cat.id)))
            b.guild.channels := by
      simp only [modifyGuildChannelPositions, List.isEmpty_cons,
        Bool.false_eq_true, if_false, List.head?_cons, hfind, hchparent]
    have hmain : sortByKey (pr :: prest) b.current
        = List.insertionSort nameLe b.current := by
      rw [← hpairs]
      exact sortByKey_diffPairs b.current hcur_nodup
    have hNBmem : ∀ x ∈ sortByKey (pr :: prest)
        (b.guild.channels.filter (fun c => c.parent == some cat.id)),
        x ∈ b.guild.channels ∧ x.parent = some cat.id := by
      intro x hx
      rw [hα] at hx
      have hx2 : x ∈ b.current := ((sortByKey_perm _ _).mem_iff).1 hx
      have hx3 : x ∈ b.guild.channels.filter
          (fun c => c.parent == some cat.id) := by
        rw [hα]
        exact hx2
      exact ⟨(List.mem_filter.1 hx3).1, by simpa using (List.mem_filter.1 hx3).2⟩
    have hfilter_new : (replaceBucket (some cat.id)
          (sortByKey (pr :: prest)
            (b.guild.channels.filter (fun c => c.parent == some cat.id)))
          b.guild.channels).filter (fun c => c.parent == some cat.id)
        = sortByKey (pr :: prest)
            (b.guild.channels.filter (fun c => c.parent == some cat.id)) := by
      refine replaceBucket_filter (some cat.id) b.guild.channels _
        (fun x hx => (hNBmem x hx).2) ?_
      have hlen1 : (sortByKey (pr :: prest)
          (b.guild.channels.filter (fun c => c.parent == some cat.id))).length
          = (b.guild.channels.filter (fun c => c.parent == some cat.id)).length :=
        (sortByKey_perm _ _).length_eq
      exact hlen1
    refine ⟨?_, hbound, ?_⟩
    · rw [hR]
      show findCategoryLoop
        (modifyGuildChannelPositions b.guild (pr :: prest)).1.channels catName
        = findCategoryLoop g1.channels catName
      rw [hmod1]
      refine Eq.trans ?_ hfindb
      unfold findCategoryLoop
      exact findCatFold_replaceBucket catName (some cat.id) b.guild.channels _
        none (fun x hx => hnonmatch_parent x (hNBmem x hx).1 (hNBmem x hx).2)
        hnonmatch_parent
    · rw [hR]
      show List.Sorted nameLe
        ((modifyGuildChannelPositions b.guild (pr :: prest)).1.channels.filter
          (fun c => c.parent == some cat.id))
      rw [hmod1, hfilter_new, hα, hmain]
      exact hsorted

theorem findCategoryLoop_append_self (chans : List Channel) (catName : String)
    (cat : Channel)
    (hm : (cat.type == GUILD_CATEGORY && cat.name == catName) = true) :
    findCategoryLoop (chans ++ [cat]) catName = some cat := by
  unfold findCategoryLoop
  rw [List.foldl_append, List.foldl_cons, List.foldl_nil, if_pos hm]

/-- A `maintainWithCategory` call on an already-converged state (all lists
bound, managed bucket sorted) is a complete no-op: no creations, no
reposition call, empty batch, state unchanged. -/
theorem maintain_second (cat : Channel) (lists : List (String × ListState))
    (g : Guild) (hbound : ∀ q ∈ lists, q.2.channelID.isSome = true)
    (hsorted : List.Sorted nameLe
      (g.channels.filter (fun ch => ch.parent == some cat.id))) :
    maintainWithCategory cat lists g 0 = ⟨lists, g, 0, 0, []⟩ := by
  have hbind := bindLists_id cat.id lists
    (g.channels.filter (fun ch => ch.parent == some cat.id)) g hbound
  have h1 : List.insertionSort nameLe
      (g.channels.filter (fun ch => ch.parent == some cat.id))
      = g.channels.filter (fun ch => ch.parent == some cat.id) :=
    hsorted.insertionSort_eq
  unfold maintainWithCategory
  simp only [hbind, h1, diffPairs_self]
  rfl

/-- C3: `channelMaintenance` is idempotent.  On a well-formed guild
(distinct channel ids below the id supply; category channels have no
parent) a second call with no intervening remote-state change finds the
category, binds nothing, computes an empty reposition batch, and issues
zero channel-creation calls and zero reposition calls — the lists and the
guild come back unchanged. -/
theorem channelMaintenance_idempotent (catName : String)
    (lists : List (String × ListState)) (g : Guild)
    (hnd : (g.channels.map (fun c => c.id)).Nodup)
    (hlt : ∀ c ∈ g.channels, c.id < g.nextID)
    (hcatWF : ∀ c ∈ g.channels, c.type = GUILD_CATEGORY → c.parent = none) :
    channelMaintenance catName (channelMaintenance catName lists g).lists
        (channelMaintenance catName lists g).guild
      = ⟨(channelMaintenance catName lists g).lists,
         (channelMaintenance catName lists g).guild, 0, 0, []⟩ := by
  cases hcase : findCategoryLoop g.channels catName with
  | some cat =>
    have hc1 : channelMaintenance catName lists g
        = maintainWithCategory cat lists g 0 := by
      unfold channelMaintenance
      rw [hcase]
    obtain ⟨hfind, hbound, hsorted⟩ :=
      maintain_post catName cat lists g 0 hnd hlt hcatWF
    rw [hc1]
    have hfind2 : findCategoryLoop
        (maintainWithCategory cat lists g 0).guild.channels catName
        = some cat := by
      rw [hfind, hcase]
    have hc2 : channelMaintenance catName
          (maintainWithCategory cat lists g 0).lists
          (maintainWithCategory cat lists g 0).guild
        = maintainWithCategory cat (maintainWithCategory cat lists g 0).lists
            (maintainWithCategory cat lists g 0).guild 0 := by
      unfold channelMaintenance
      rw [hfind2]
    rw [hc2]
    exact maintain_second cat _ _ hbound hsorted
  | none =>
    have hc1 : channelMaintenance catName lists g
        = maintainWithCategory (createGuildChannel g catName GUILD_CATEGORY
            none).1 lists (createGuildChannel g catName GUILD_CATEGORY none).2
            1 := by
      unfold channelMaintenance
      rw [hcase]
    set cat := (createGuildChannel g catName GUILD_CATEGORY none).1 with hcat
    set g1 := (createGuildChannel g catName GUILD_CATEGORY none).2 with hg1
    have hg1chan : g1.channels = g.channels ++ [cat] := rfl
    have hg1next : g1.nextID = g.nextID + 1 := rfl
    have hcatid : cat.id = g.nextID := rfl
    have hnd1 : (g1.channels.map (fun c => c.id)).Nodup := by
      rw [hg1chan, List.map_append]
      refine List.Nodup.append hnd (by simp) ?_
      intro a ha hb
      simp only [List.map_cons, List.map_nil, List.mem_singleton] at hb
      obtain ⟨c2, hc2, hc2id⟩ := List.mem_map.1 ha
      rw [hb, hcatid] at hc2id
      exact absurd hc2id (Nat.ne_of_lt (hlt c2 hc2))
    have hlt1 : ∀ c ∈ g1.channels, c.id < g1.nextID := by
      intro c hc
      rw [hg1chan] at hc
      rw [hg1next]
      rcases List.mem_append.1 hc with hc | hc
      · exact Nat.lt_trans (hlt c hc) (Nat.lt_succ_self _)
      · simp only [List.mem_singleton] at hc
        subst hc
        rw [hcatid]
        exact Nat.lt_succ_self _
    have hcatWF1 : ∀ c ∈ g1.channels,
        c.type = GUILD_CATEGORY → c.parent = none := by
      intro c hc htype
      rw [hg1chan] at hc
      rcases List.mem_append.1 hc with hc | hc
      · exact hcatWF c hc htype
      · simp only [List.mem_singleton] at hc
        subst hc
        rfl
    obtain ⟨hfind, hbound, hsorted⟩ :=
      maintain_post catName cat lists g1 1 hnd1 hlt1 hcatWF1
    have hfindg1 : findCategoryLoop g1.channels catName = some cat := by
      rw [hg1chan]
      exact findCategoryLoop_append_self g.channels catName cat (by simp [hcat,
        createGuildChannel, GUILD_CATEGORY])
    have hfind2 : findCategoryLoop
        (maintainWithCategory cat lists g1 1).guild.channels catName
        = some cat := by
      rw [hfind, hfindg1]
    rw [hc1]
    have hc2 : channelMaintenance catName
          (maintainWithCategory cat lists g1 1).lists
          (maintainWithCategory cat lists g1 1).guild
        = maintainWithCategory cat (maintainWithCategory cat lists g1 1).lists
            (maintainWithCategory cat lists g1 1).guild 0 := by
      unfold channelMaintenance
      rw [hfind2]
    rw [hc2]
    exact maintain_second cat _ _ hbound hsorted

/-- Witness for the C3 theorem at a concrete input. -/
theorem channelMaintenance_idempotent_witness :
    ((⟨[⟨0, "cats", 4, none⟩, ⟨1, "zeta", 0, some 0⟩], 2⟩ :
        Guild).channels.map (fun c => c.id)).Nodup ∧
    (∀ c ∈ (⟨[⟨0, "cats", 4, none⟩, ⟨1, "zeta", 0, some 0⟩], 2⟩ :
        Guild).channels, c.id < 2) ∧
    (∀ c ∈ (⟨[⟨0, "cats", 4, none⟩, ⟨1, "zeta", 0, some 0⟩], 2⟩ :
        Guild).channels, c.type = GUILD_CATEGORY → c.parent = none) ∧
    channelMaintenance "cats"
        (channelMaintenance "cats" [("Alpha", ⟨5, none, []⟩)]
          ⟨[⟨0, "cats", 4, none⟩, ⟨1, "zeta", 0, some 0⟩], 2⟩).lists
        (channelMaintenance "cats" [("Alpha", ⟨5, none, []⟩)]
          ⟨[⟨0, "cats", 4, none⟩, ⟨1, "zeta", 0, some 0⟩], 2⟩).guild
      = ⟨(channelMaintenance "cats" [("Alpha", ⟨5, none, []⟩)]
            ⟨[⟨0, "cats", 4, none⟩, ⟨1, "zeta", 0, some 0⟩], 2⟩).lists,
         (channelMaintenance "cats" [("Alpha", ⟨5, none, []⟩)]
            ⟨[⟨0, "cats", 4, none⟩, ⟨1, "zeta", 0, some 0⟩], 2⟩).guild,
         0, 0, []⟩ :=
  ⟨by decide, by decide, by decide,
   channelMaintenance_idempotent "cats" [("Alpha", ⟨5, none, []⟩)]
     ⟨[⟨0, "cats", 4, none⟩, ⟨1, "zeta", 0, some 0⟩], 2⟩
     (by decide) (by decide) (by decide)⟩

/-- C5: reconciliation computes the target order by sorting the managed
channels lexicographically by name, emits a `(channelID, newPosition)`
pair for exactly the indices whose occupant changed, and issues a single
batched reposition call with exactly those pairs.  Concretely, managed
channels fetched as Zeta, Alpha, Mike (ids 1, 2, 3) produce the batch
`[(2,0), (3,1), (1,2)]` in one call, and the resulting managed order is
Alpha, Mike, Zeta; when the managed channels are already sorted the batch
is empty and no call is issued; and in general, on a well-formed guild the
call leaves the managed bucket sorted by name. -/
theorem repositionBatch_sorts_managed_channels :
    ((channelMaintenance "cats" []
        ⟨[⟨0, "cats", 4, none⟩, ⟨1, "Zeta", 0, some 0⟩, ⟨2, "Alpha", 0, some 0⟩,
          ⟨3, "Mike", 0, some 0⟩], 4⟩).pairs = [(2, 0), (3, 1), (1, 2)] ∧
     (channelMaintenance "cats" []
        ⟨[⟨0, "cats", 4, none⟩, ⟨1, "Zeta", 0, some 0⟩, ⟨2, "Alpha", 0, some 0⟩,
          ⟨3, "Mike", 0, some 0⟩], 4⟩).repositionCalls = 1 ∧
     ((channelMaintenance "cats" []
        ⟨[⟨0, "cats", 4, none⟩, ⟨1, "Zeta", 0, some 0⟩, ⟨2, "Alpha", 0, some 0⟩,
          ⟨3, "Mike", 0, some 0⟩], 4⟩).guild.channels.filter
        (fun c => c.parent == some 0)).map (fun c => c.name)
       = ["Alpha", "Mike", "Zeta"]) ∧
    (∀ (cat : Channel) (lists : List (String × ListState)) (g : Guild),
      (∀ q ∈ lists, q.2.channelID.isSome = true) →
      List.Sorted nameLe
        (g.channels.filter (fun ch => ch.parent == some cat.id)) →
      (maintainWithCategory cat lists g 0).pairs = [] ∧
      (maintainWithCategory cat lists g 0).repositionCalls = 0) ∧
    (∀ (catName : String) (lists : List (String × ListState)) (g : Guild)
      (cat : Channel),
      (g.channels.map (fun c => c.id)).Nodup →
      (∀ c ∈ g.channels, c.id < g.nextID) →
      (∀ c ∈ g.channels, c.type = GUILD_CATEGORY → c.parent = none) →
      findCategoryLoop g.channels catName = some cat →
      List.Sorted nameLe
        ((channelMaintenance catName lists g).guild.channels.filter
          (fun c => c.parent == some cat.id))) := by
  refine ⟨⟨by decide, by decide, by decide⟩, ?_, ?_⟩
  · intro cat lists g hbound hsorted
    rw [maintain_second cat lists g hbound hsorted]
    exact ⟨rfl, rfl⟩
  · intro catName lists g cat hnd hlt hcatWF hfound
    have hc1 : channelMaintenance catName lists g
        = maintainWithCategory cat lists g 0 := by
      unfold channelMaintenance
      rw [hfound]
    rw [hc1]
    exact (maintain_post catName cat lists g 0 hnd hlt hcatWF).2.2

/-- Witness for the C5 theorem at a concrete input. -/
theorem repositionBatch_sorts_managed_channels_witness :
    (((⟨[⟨0, "c", 4, none⟩, ⟨1, "b", 0, some 0⟩, ⟨2, "a", 0, some 0⟩], 3⟩ :
        Guild).channels.map (fun c => c.id)).Nodup ∧
     (∀ c ∈ (⟨[⟨0, "c", 4, none⟩, ⟨1, "b", 0, some 0⟩, ⟨2, "a", 0, some 0⟩],
        3⟩ : Guild).channels, c.id < 3) ∧
     (∀ c ∈ (⟨[⟨0, "c", 4, none⟩, ⟨1, "b", 0, some 0⟩, ⟨2, "a", 0, some 0⟩],
        3⟩ : Guild).channels, c.type = GUILD_CATEGORY → c.parent = none) ∧
     findCategoryLoop (⟨[⟨0, "c", 4, none⟩, ⟨1, "b", 0, some 0⟩,
        ⟨2, "a", 0, some 0⟩], 3⟩ : Guild).channels "c"
       = some ⟨0, "c", 4, none⟩) ∧
    List.Sorted nameLe
      ((channelMaintenance "c" []
        ⟨[⟨0, "c", 4, none⟩, ⟨1, "b", 0, some 0⟩, ⟨2, "a", 0, some 0⟩],
          3⟩).guild.channels.filter
        (fun c => c.parent == some (⟨0, "c", 4, none⟩ : Channel).id)) :=
  ⟨⟨by decide, by decide, by decide, by decide⟩,
   repositionBatch_sorts_managed_channels.2.2 "c" []
     ⟨[⟨0, "c", 4, none⟩, ⟨1, "b", 0, some 0⟩, ⟨2, "a", 0, some 0⟩], 3⟩
     ⟨0, "c", 4, none⟩ (by decide) (by decide) (by decide) (by decide)⟩
